import Mathlib

/-!
Verification of the workflow-orchestration spec against the repository.

The repository's files under verification are `jobTreeStats.py` (statistics
reporting: `padStr`, `prettyMemory`, `reportMemory`, `get`, `JTTag.__get`,
`buildElement`, `createSummary`, `processData`) and the batch-system /
provisioner test and option files.  The core triad the spec describes (Job
Graph Manager, Leader Scheduler, Autoscaler) is not part of the repository
files available here — only its tests and callers are — so those components
are modelled from the spec's own words, as documented on each definition.
-/

namespace Toil

/-- Modelled from the spec: the `state` field of a Job Record,
`Unissued → Dispatched → Completed | Failed` (spec §3).  The Job Graph
Manager source is not in the repository files, so the data model follows
the spec's data-model section. -/
inductive JobState
  | unissued
  | dispatched
  | completed
  | failed
deriving DecidableEq

/-- Modelled from the spec: a Job Record (spec §3) with the fields the
claims exercise: identity, predecessor count, successor links, retry
budget and state.  `command`, resource requirements and blob references
are opaque to every claim and are omitted. -/
structure JobRecord where
  jid : Nat
  predecessorsRemaining : Nat
  successors : List Nat
  retriesRemaining : Nat
  state : JobState
deriving DecidableEq

/-- Modelled from the spec: the persisted set of Job Records, the mapping
from id to record that the Job Graph Manager indexes (spec §3). -/
abbrev GraphState := List JobRecord

/-- Look a Job Record up by id (first record carrying the id). -/
def lookup (g : GraphState) (i : Nat) : Option JobRecord :=
  g.find? (fun r => r.jid == i)

/-- The state of the record with id `i`, when present. -/
def lookupState (g : GraphState) (i : Nat) : Option JobState :=
  (lookup g i).map (fun r => r.state)

/-- Modelled from the spec: `nextReady` marks a returned job `Dispatched`
(spec §4.1); dispatching one ready job is one such marking. -/
def markDispatched (g : GraphState) (i : Nat) : GraphState :=
  g.map (fun r => if r.jid == i then { r with state := .dispatched } else r)

/-- Modelled from the spec: the success branch of `recordCompletion`
(spec §4.1) — persist the new successor records, decrement
`predecessorsRemaining` on each of the completing record's listed
successors, and mark the job `Completed`. -/
def applySuccess (g : GraphState) (rec : JobRecord) (newRecs : List JobRecord) :
    GraphState :=
  g.map (fun r =>
    if r.jid == rec.jid then { r with state := .completed }
    else if rec.successors.contains r.jid then
      { r with predecessorsRemaining := r.predecessorsRemaining - 1 }
    else r) ++ newRecs

/-- Whether some record of `g` is Failed and lists `j` as a successor. -/
def hasFailedParent (g : GraphState) (j : Nat) : Bool :=
  g.any (fun p => p.state == .failed && p.successors.contains j)

/-- Modelled from the spec: one round of fail-fast propagation — every
record with a Failed parent is marked Failed (spec §4.1: descendants are
transitively marked Failed without execution). -/
def propagateOnce (g : GraphState) : GraphState :=
  g.map (fun r =>
    if hasFailedParent g r.jid then { r with state := .failed } else r)

/-- Iterate `propagateOnce`; `g.length` rounds reach the transitive
closure. -/
def propagate : Nat → GraphState → GraphState
  | 0, g => g
  | n + 1, g => propagate n (propagateOnce g)

/-- Modelled from the spec: the failure branch of `recordCompletion`
(spec §4.1) — decrement `retriesRemaining`; if still positive return the
job to `Unissued`, else mark it Failed and propagate failure to all
descendants. -/
def applyFailure (g : GraphState) (rec : JobRecord) : GraphState :=
  let n := rec.retriesRemaining - 1
  if n = 0 then
    propagate g.length
      (g.map (fun r =>
        if r.jid == rec.jid then
          { r with retriesRemaining := 0, state := .failed }
        else r))
  else
    g.map (fun r =>
      if r.jid == rec.jid then
        { r with retriesRemaining := n, state := .unissued }
      else r)

/-- Modelled from the spec: the tagged outcome attached to a completion
event (spec §9: {ApplicationFailure → failure, success}). -/
inductive Outcome
  | success
  | failure
deriving DecidableEq

/-- Modelled from the spec: `recordCompletion(id, outcome,
newSuccessorRecords)` (spec §4.1).  A completion for a record that is not
currently Dispatched (a retried delivery of an already-applied completion
event) is ignored, which is what makes the operation idempotent
(spec §8, exactly-once effective completion). -/
def recordCompletion (g : GraphState) (i : Nat) (o : Outcome)
    (newRecs : List JobRecord) : GraphState :=
  match lookup g i with
  | none => g
  | some rec =>
    if rec.state = .dispatched then
      match o with
      | .success => applySuccess g rec newRecs
      | .failure => applyFailure g rec
    else g

/-- Modelled from the spec: the scheduling events the Leader Scheduler
drives the graph with — a `nextReady` call returning an id (one dispatch)
and a drained completion event fed to `recordCompletion` (spec §4.2). -/
inductive Event
  | dispatch (i : Nat)
  | complete (i : Nat) (o : Outcome) (newRecs : List JobRecord)
deriving DecidableEq

/-- Whether an event is the completion event of job `i`. -/
def Event.isCompletionOf : Event → Nat → Bool
  | .dispatch _, _ => false
  | .complete j _ _, i => j == i

/-- Modelled from the spec: the well-formedness of the fresh successor
records a completing job persists (spec §3: successors are child records
created upon the parent's completion; the graph stays a DAG consistent
with the links, and predecessor counts count unsatisfied prerequisites). -/
def FreshOk (g : GraphState) (i : Nat) (newRecs : List JobRecord) : Prop :=
  newRecs.Pairwise (fun a b => a.jid ≠ b.jid) ∧
  ∀ r ∈ newRecs,
    lookup g r.jid = none ∧
    r.state = .unissued ∧
    (∀ s ∈ r.successors, lookup g s = none) ∧
    (∀ p ∈ g, r.jid ∈ p.successors → p.jid = i) ∧
    newRecs.countP (fun p => p.successors.contains r.jid) ≤
      r.predecessorsRemaining

/-- Modelled from the spec: one transition of the Job Graph Manager under
the Leader Scheduler loop (spec §4.1–4.2).  A job is dispatched only when
ready (zero predecessors remaining, `Unissued`); a completion is recorded
only for a `Dispatched` job, and a failure event carries no successor
records. -/
inductive Step : GraphState → Event → GraphState → Prop
  | dispatch (g : GraphState) (i : Nat) (rec : JobRecord) :
      lookup g i = some rec →
      rec.state = .unissued →
      rec.predecessorsRemaining = 0 →
      Step g (.dispatch i) (markDispatched g i)
  | complete (g : GraphState) (i : Nat) (rec : JobRecord) (o : Outcome)
      (newRecs : List JobRecord) :
      lookup g i = some rec →
      rec.state = .dispatched →
      FreshOk g i newRecs →
      (o = .failure → newRecs = []) →
      Step g (.complete i o newRecs) (recordCompletion g i o newRecs)

/-- Modelled from the spec: a run of the scheduling loop — a sequence of
events driving the graph from one state to another (spec §4.2). -/
inductive Run : GraphState → List Event → GraphState → Prop
  | nil (g : GraphState) : Run g [] g
  | cons {g g' g'' : GraphState} {e : Event} {t : List Event} :
      Step g e g' → Run g' t g'' → Run g (e :: t) g''

/-- Some record of `g` is named `p` and lists `q` among its successors. -/
def Edge (g : GraphState) (p q : Nat) : Prop :=
  ∃ r ∈ g, r.jid = p ∧ q ∈ r.successors

/-- Some record of `g` carries id `i`. -/
def ExistsId (g : GraphState) (i : Nat) : Prop :=
  ∃ r ∈ g, r.jid = i

/-- `b` transitively depends on `a`: a nonempty chain of successor links
from `a` to `b`. -/
inductive Reaches (g : GraphState) : Nat → Nat → Prop
  | single {a b : Nat} : Edge g a b → Reaches g a b
  | head {a b c : Nat} : Edge g a b → Reaches g b c → Reaches g a c

/-! ### Basic lookup lemmas -/

theorem lookup_jid {g : GraphState} {i : Nat} {r : JobRecord}
    (h : lookup g i = some r) : r.jid = i := by
  have := List.find?_some h
  simpa using this

theorem lookup_mem {g : GraphState} {i : Nat} {r : JobRecord}
    (h : lookup g i = some r) : r ∈ g :=
  List.mem_of_find?_eq_some h

theorem lookup_eq_none {g : GraphState} {i : Nat} :
    lookup g i = none ↔ ∀ r ∈ g, r.jid ≠ i := by
  simp [lookup, List.find?_eq_none]

theorem lookup_map {g : GraphState} {f : JobRecord → JobRecord}
    (hf : ∀ r, (f r).jid = r.jid) (i : Nat) :
    lookup (g.map f) i = (lookup g i).map f := by
  induction g with
  | nil => rfl
  | cons a t ih =>
    simp only [lookup, List.map_cons, List.find?_cons] at *
    by_cases h : a.jid = i
    · simp [hf a, h]
    · have h1 : ((f a).jid == i) = false := by simp [hf a, h]
      have h2 : (a.jid == i) = false := by simp [h]
      simp [h1, h2, ih]

theorem lookup_append {g h : GraphState} {i : Nat} {r : JobRecord}
    (hg : lookup g i = some r) : lookup (g ++ h) i = some r := by
  induction g with
  | nil => simp [lookup] at hg
  | cons a t ih =>
    simp only [lookup, List.cons_append, List.find?_cons] at *
    by_cases hj : (a.jid == i) = true
    · simpa [hj] using hg
    · have hj' : (a.jid == i) = false := by simpa using hj
      simp only [hj'] at hg ⊢
      exact ih hg

theorem lookup_append_right {g h : GraphState} {i : Nat}
    (hg : lookup g i = none) : lookup (g ++ h) i = lookup h i := by
  induction g with
  | nil => simp
  | cons a t ih =>
    simp only [lookup, List.cons_append, List.find?_cons] at *
    by_cases hj : (a.jid == i) = true
    · simp [hj] at hg
    · have hj' : (a.jid == i) = false := by simpa using hj
      simp only [hj'] at hg ⊢
      exact ih hg

/-- The id map of `g` has no duplicates: each id denotes one record. -/
def UniqueIds (g : GraphState) : Prop := (g.map (fun r => r.jid)).Nodup

theorem mem_lookup {g : GraphState} {r : JobRecord}
    (hu : UniqueIds g) (hr : r ∈ g) : lookup g r.jid = some r := by
  induction g with
  | nil => simp at hr
  | cons a t ih =>
    have hu' : UniqueIds t := by
      simpa [UniqueIds, List.nodup_cons] using hu.of_cons
    rcases List.mem_cons.mp hr with h | h
    · subst h; simp [lookup, List.find?_cons]
    · have hne : a.jid ≠ r.jid := by
        intro he
        have : a.jid ∈ t.map (fun r => r.jid) := by
          rw [he]; exact List.mem_map_of_mem _ h
        exact (List.nodup_cons.mp hu).1 this
      have : (a.jid == r.jid) = false := by simpa using hne
      simp only [lookup, List.find?_cons, this]
      exact ih hu' h

/-! ### Shape-preserving record transformations -/

/-- A record transformation that keeps identity, links, predecessor count
and retry budget, and can move a state only to `failed`. -/
def PreservesShape (f : JobRecord → JobRecord) : Prop :=
  ∀ r, (f r).jid = r.jid ∧ (f r).successors = r.successors ∧
    (f r).predecessorsRemaining = r.predecessorsRemaining ∧
    (f r).retriesRemaining = r.retriesRemaining ∧
    ((f r).state = r.state ∨ (f r).state = .failed)

theorem set_failed_eq_self {r : JobRecord} (h : r.state = .failed) :
    ({ r with state := .failed } : JobRecord) = r := by
  cases r; simp_all

theorem map_eq_self_of_eq {g : GraphState} {f : JobRecord → JobRecord}
    (h : ∀ r ∈ g, f r = r) : g.map f = g := by
  rw [List.map_congr_left h]; simp

theorem eq_of_map_eq_self {g : GraphState} {f : JobRecord → JobRecord}
    (h : g.map f = g) : ∀ r ∈ g, f r = r := by
  induction g with
  | nil => simp
  | cons a t ih =>
    simp only [List.map_cons, List.cons.injEq] at h
    intro r hr
    rcases List.mem_cons.mp hr with h' | h'
    · subst h'; exact h.1
    · exact ih h.2 r h'

/-- Every record of `g` that is Completed has only Completed parents. -/
def CompParentsComp (g : GraphState) : Prop :=
  ∀ r ∈ g, r.state = .completed →
    ∀ p ∈ g, r.jid ∈ p.successors → p.state = .completed

/-- The per-record function `propagateOnce` maps over the graph. -/
def pfun (g : GraphState) (r : JobRecord) : JobRecord :=
  if hasFailedParent g r.jid then { r with state := .failed } else r

theorem propagateOnce_eq_map (g : GraphState) :
    propagateOnce g = g.map (pfun g) := rfl

theorem pfun_shape (g : GraphState) : PreservesShape (pfun g) := by
  intro r
  unfold pfun
  by_cases h : hasFailedParent g r.jid <;> simp [h]

theorem pfun_of_completed {g : GraphState} (hc : CompParentsComp g)
    {r : JobRecord} (hr : r ∈ g) (hs : r.state = .completed) :
    pfun g r = r := by
  unfold pfun
  have : hasFailedParent g r.jid = false := by
    rw [hasFailedParent, List.any_eq_false]
    intro p hp hcond
    rw [Bool.and_eq_true] at hcond
    have hpf : p.state = .failed := by simpa using hcond.1
    have hmem : r.jid ∈ p.successors := by simpa using hcond.2
    have := hc r hr hs p hp hmem
    rw [this] at hpf; exact JobState.noConfusion hpf
  simp [this]

theorem compParentsComp_propagateOnce {g : GraphState}
    (hc : CompParentsComp g) : CompParentsComp (propagateOnce g) := by
  rw [propagateOnce_eq_map]
  intro r' hr' hs' p' hp' hsucc
  rcases List.mem_map.mp hr' with ⟨r, hr, hfr⟩
  rcases List.mem_map.mp hp' with ⟨p, hp, hfp⟩
  have hrs : r.state = .completed := by
    rcases (pfun_shape g r).2.2.2.2 with h | h
    · rw [hfr] at h; rw [← h, hs']
    · rw [hfr] at h; rw [h] at hs'; exact absurd hs' (by simp)
  have hrj : r'.jid = r.jid := by rw [← hfr]; exact (pfun_shape g r).1
  have hpsucc : r.jid ∈ p.successors := by
    have := (pfun_shape g p).2.1
    rw [hfp] at this
    rw [← hrj, ← this]; exact hsucc
  have hpc : p.state = .completed := hc r hr hrs p hp hpsucc
  rw [← hfp, pfun_of_completed hc hp hpc]; exact hpc

theorem propagate_map (k : Nat) (g : GraphState) :
    ∃ F : JobRecord → JobRecord,
      propagate k g = g.map F ∧ PreservesShape F ∧
      (CompParentsComp g → ∀ r ∈ g, r.state = .completed → F r = r) := by
  induction k generalizing g with
  | zero =>
    exact ⟨id, by simp [propagate], fun r => by simp, fun _ _ _ _ => rfl⟩
  | succ n ih =>
    rcases ih (propagateOnce g) with ⟨F, hmap, hshape, hcomp⟩
    refine ⟨F ∘ pfun g, ?_, ?_, ?_⟩
    · show propagate n (propagateOnce g) = _
      rw [hmap, propagateOnce_eq_map, List.map_map]
    · intro r
      rcases hshape (pfun g r) with ⟨h1, h2, h3, h4, h5⟩
      rcases pfun_shape g r with ⟨g1, g2, g3, g4, g5⟩
      refine ⟨by simp [h1, g1], by simp [h2, g2], by simp [h3, g3],
        by simp [h4, g4], ?_⟩
      rcases h5 with h5 | h5
      · rcases g5 with g5 | g5
        · exact Or.inl (by simp [h5, g5])
        · exact Or.inr (by simp [h5, g5])
      · exact Or.inr h5
    · intro hc r hr hs
      have h1 : pfun g r = r := pfun_of_completed hc hr hs
      have h2 : pfun g r ∈ propagateOnce g := by
        rw [propagateOnce_eq_map]; exact List.mem_map_of_mem _ hr
      have := hcomp (compParentsComp_propagateOnce hc) (pfun g r) h2
        (by rw [h1]; exact hs)
      simp only [Function.comp_apply, h1] at *
      exact this

/-! ### The propagation iteration reaches its fixed point -/

/-- The number of Failed records of `g`. -/
def failedCount (g : GraphState) : Nat :=
  g.countP (fun r => r.state == .failed)

theorem countP_lt_of_witness {α : Type} {l : List α} {p q : α → Bool} {r : α}
    (hr : r ∈ l) (hp : p r = false) (hq : q r = true)
    (hmono : ∀ x ∈ l, p x = true → q x = true) :
    l.countP p < l.countP q := by
  induction l with
  | nil => simp at hr
  | cons a t ih =>
    rw [List.countP_cons, List.countP_cons]
    rcases List.mem_cons.mp hr with h | h
    · subst h
      rw [hp, hq]
      have : t.countP p ≤ t.countP q :=
        List.countP_mono_left (fun x hx => hmono x (List.mem_cons_of_mem _ hx))
      norm_num
      omega
    · have h1 : t.countP p < t.countP q :=
        ih h (fun x hx => hmono x (List.mem_cons_of_mem _ hx))
      have h2 : (if p a then 1 else 0) ≤ (if q a then 1 else 0) := by
        by_cases hpa : p a = true
        · rw [hmono a (List.mem_cons_self a t) hpa, hpa]
        · simp [hpa]
      omega

theorem pfun_eq_self_cases {g : GraphState} {r : JobRecord}
    (h : pfun g r ≠ r) :
    hasFailedParent g r.jid = true ∧ r.state ≠ .failed := by
  unfold pfun at h
  by_cases hb : hasFailedParent g r.jid = true
  · refine ⟨hb, fun hf => h ?_⟩
    rw [if_pos hb]
    exact set_failed_eq_self hf
  · exact absurd (by rw [if_neg hb]) h

theorem failedCount_propagateOnce_mono (g : GraphState) :
    failedCount g ≤ failedCount (propagateOnce g) := by
  rw [failedCount, failedCount, propagateOnce_eq_map, List.countP_map]
  refine List.countP_mono_left (fun r _ hr => ?_)
  simp only [Function.comp_apply]
  rcases (pfun_shape g r).2.2.2.2 with h | h
  · rw [h]; exact hr
  · simp [h]

theorem propagateOnce_fixed_iter {g : GraphState}
    (h : propagateOnce g = g) (k : Nat) : propagate k g = g := by
  induction k with
  | zero => rfl
  | succ n ih =>
    show propagate n (propagateOnce g) = g
    rw [h]; exact ih

theorem propagate_fix (k : Nat) (g : GraphState)
    (h : g.length ≤ failedCount g + k) :
    propagateOnce (propagate k g) = propagate k g := by
  induction k generalizing g with
  | zero =>
    have hall : ∀ r ∈ g, (fun r : JobRecord => r.state == .failed) r = true := by
      apply List.countP_eq_length.mp
      simp only [failedCount] at h
      have := List.countP_le_length (l := g)
        (p := fun r : JobRecord => r.state == .failed)
      omega
    show propagateOnce g = g
    rw [propagateOnce_eq_map]
    refine map_eq_self_of_eq (fun r hr => ?_)
    have hf : r.state = .failed := by simpa using hall r hr
    unfold pfun
    by_cases hb : hasFailedParent g r.jid = true
    · rw [if_pos hb]; exact set_failed_eq_self hf
    · rw [if_neg hb]
  | succ n ih =>
    by_cases hfix : propagateOnce g = g
    · have h1 : propagate (n + 1) g = g := propagateOnce_fixed_iter hfix (n + 1)
      rw [h1, hfix]
    · have hwit : ∃ r ∈ g, pfun g r ≠ r := by
        by_contra hc
        push_neg at hc
        exact hfix (by rw [propagateOnce_eq_map]; exact map_eq_self_of_eq hc)
      rcases hwit with ⟨r, hr, hne⟩
      rcases pfun_eq_self_cases hne with ⟨hbp, hnf⟩
      have hstrict : failedCount g < failedCount (propagateOnce g) := by
        rw [failedCount, failedCount, propagateOnce_eq_map, List.countP_map]
        refine countP_lt_of_witness hr (by simpa using hnf) ?_ ?_
        · simp only [Function.comp_apply]
          unfold pfun
          rw [if_pos hbp]
          simp
        · intro x _ hx
          simp only [Function.comp_apply]
          rcases (pfun_shape g x).2.2.2.2 with h' | h'
          · rw [h']; exact hx
          · simp [h']
      have hlen : (propagateOnce g).length = g.length := by
        rw [propagateOnce_eq_map, List.length_map]
      show propagateOnce (propagate n (propagateOnce g)) =
        propagate n (propagateOnce g)
      exact ih (propagateOnce g) (by omega)

/-- No record of `g` with a Failed parent (in `g`) escapes being Failed. -/
def FailedClosed (g : GraphState) : Prop :=
  ∀ p ∈ g, p.state = .failed → ∀ q ∈ g, q.jid ∈ p.successors →
    q.state = .failed

theorem failedClosed_of_fixed {g : GraphState}
    (h : propagateOnce g = g) : FailedClosed g := by
  intro p hp hpf q hq hsucc
  rw [propagateOnce_eq_map] at h
  have hqq := eq_of_map_eq_self h q hq
  have hb : hasFailedParent g q.jid = true := by
    rw [hasFailedParent, List.any_eq_true]
    exact ⟨p, hp, by simp [hpf, hsucc]⟩
  unfold pfun at hqq
  rw [if_pos hb] at hqq
  calc q.state = ({ q with state := .failed } : JobRecord).state := by
        rw [hqq]
      _ = .failed := rfl

theorem failedClosed_propagate (g : GraphState) :
    FailedClosed (propagate g.length g) :=
  failedClosed_of_fixed (propagate_fix g.length g (by omega))

/-! ### The Job Graph Manager's invariant (spec §3) -/

/-- The number of records of `g` that list `j` as a successor and are not
yet Completed: `j`'s unsatisfied direct prerequisites. -/
def incompleteParents (g : GraphState) (j : Nat) : Nat :=
  g.countP (fun p => p.successors.contains j && !(p.state == .completed))

/-- `predecessorsRemaining` dominates the number of unsatisfied direct
prerequisites (spec §3: it counts not-yet-satisfied direct
prerequisites). -/
def PredCount (g : GraphState) : Prop :=
  ∀ r ∈ g, incompleteParents g r.jid ≤ r.predecessorsRemaining

/-- A state of a record that has been handed to the batch system at least
once and not failed: Dispatched or Completed. -/
def StartedSt (s : JobState) : Prop := s = .dispatched ∨ s = .completed

/-- A record is dispatched or completed only when every parent listing it
has Completed (a job is ready only at zero remaining predecessors). -/
def ParentsCompleted (g : GraphState) : Prop :=
  ∀ r ∈ g, StartedSt r.state → ∀ p ∈ g, r.jid ∈ p.successors →
    p.state = .completed

/-- Modelled from the spec: the Job Graph Manager's standing invariant
over persisted Job Records (spec §3 invariants; the manager's source is
not among the repository files). -/
def Inv (g : GraphState) : Prop :=
  UniqueIds g ∧ PredCount g ∧ ParentsCompleted g ∧ FailedClosed g

theorem compParentsComp_of_parentsCompleted {g : GraphState}
    (h : ParentsCompleted g) : CompParentsComp g :=
  fun r hr hs p hp hsucc => h r hr (Or.inr hs) p hp hsucc

theorem uniqueIds_map {g : GraphState} {f : JobRecord → JobRecord}
    (hf : ∀ r, (f r).jid = r.jid) (h : UniqueIds g) :
    UniqueIds (g.map f) := by
  unfold UniqueIds at *
  rw [List.map_map,
    show ((fun r : JobRecord => r.jid) ∘ f) = (fun r : JobRecord => r.jid)
      from funext (fun r => hf r)]
  exact h

theorem incompleteParents_map_le {g : GraphState} {f : JobRecord → JobRecord}
    (j : Nat)
    (hf : ∀ p ∈ g, (f p).successors = p.successors ∧
      (p.state = .completed → (f p).state = .completed)) :
    incompleteParents (g.map f) j ≤ incompleteParents g j := by
  rw [incompleteParents, incompleteParents, List.countP_map]
  refine List.countP_mono_left (fun p hp hcond => ?_)
  simp only [Function.comp_apply, Bool.and_eq_true, Bool.not_eq_true',
    beq_eq_false_iff_ne, ne_eq] at hcond ⊢
  rcases hf p hp with ⟨hsucc, hst⟩
  rw [hsucc] at hcond
  exact ⟨hcond.1, fun hc => hcond.2 (hst hc)⟩

theorem parents_completed_of_zero {g : GraphState} {j : Nat}
    (h : incompleteParents g j = 0) :
    ∀ p ∈ g, j ∈ p.successors → p.state = .completed := by
  intro p hp hmem
  have h0 := List.countP_eq_zero.mp h p hp
  by_contra hne
  apply h0
  have h1 : p.successors.contains j = true := by simpa using hmem
  have h2 : (p.state == .completed) = false := by simpa using hne
  rw [h1, h2]
  rfl

theorem lookup_unique {g : GraphState} {i : Nat} {rec : JobRecord}
    (hU : UniqueIds g) (hl : lookup g i = some rec) :
    ∀ r ∈ g, r.jid = i → r = rec := by
  intro r hr hj
  have := mem_lookup hU hr
  rw [hj, hl] at this
  exact (Option.some.inj this).symm

/-! ### Preservation of the invariant by each scheduling step -/

theorem inv_markDispatched {g : GraphState} {i : Nat} {rec : JobRecord}
    (hinv : Inv g) (hl : lookup g i = some rec)
    (hu : rec.state = .unissued) (hp : rec.predecessorsRemaining = 0) :
    Inv (markDispatched g i) := by
  obtain ⟨hU, hP, hPC, hFC⟩ := hinv
  have hmd : markDispatched g i =
      g.map (fun r => if r.jid == i then
        { r with state := JobState.dispatched } else r) := rfl
  set f := fun r : JobRecord => if r.jid == i then
    { r with state := JobState.dispatched } else r with hfdef
  have hfne : ∀ r : JobRecord, r.jid ≠ i → f r = r := by
    intro r h; simp [hfdef, h]
  have hfeq : ∀ r : JobRecord, r.jid = i →
      f r = { r with state := JobState.dispatched } := by
    intro r h; simp [hfdef, h]
  have hshape : ∀ r : JobRecord, (f r).jid = r.jid ∧
      (f r).successors = r.successors ∧
      (f r).predecessorsRemaining = r.predecessorsRemaining := by
    intro r; by_cases h : r.jid = i <;> simp [hfdef, h]
  have honly := lookup_unique hU hl
  have hzero : incompleteParents g i = 0 := by
    have h1 := hP rec (lookup_mem hl)
    rw [lookup_jid hl] at h1
    omega
  have hpar := parents_completed_of_zero hzero
  have hfkeep : ∀ p ∈ g, p.state = .completed → f p = p := by
    intro p hmem hc
    by_cases hpj : p.jid = i
    · have := honly p hmem hpj
      rw [this, hu] at hc
      exact JobState.noConfusion hc
    · exact hfne p hpj
  rw [hmd]
  refine ⟨uniqueIds_map (fun r => (hshape r).1) hU, ?_, ?_, ?_⟩
  · intro r' hr'
    rcases List.mem_map.mp hr' with ⟨r, hr, hfr⟩
    have hle : incompleteParents (g.map f) r.jid ≤ incompleteParents g r.jid := by
      refine incompleteParents_map_le r.jid (fun p hmem => ?_)
      exact ⟨(hshape p).2.1, fun hc => by rw [hfkeep p hmem hc]; exact hc⟩
    calc incompleteParents (g.map f) r'.jid
        = incompleteParents (g.map f) r.jid := by rw [← hfr, (hshape r).1]
      _ ≤ incompleteParents g r.jid := hle
      _ ≤ r.predecessorsRemaining := hP r hr
      _ = r'.predecessorsRemaining := by rw [← hfr, (hshape r).2.2]
  · intro r' hr' hst p' hp' hsucc
    rcases List.mem_map.mp hr' with ⟨r, hr, hfr⟩
    rcases List.mem_map.mp hp' with ⟨p, hmem, hfp⟩
    have hsucc' : r.jid ∈ p.successors := by
      have e1 : r'.jid = r.jid := by rw [← hfr, (hshape r).1]
      have e2 : p'.successors = p.successors := by rw [← hfp, (hshape p).2.1]
      rw [e1] at hsucc; rw [e2] at hsucc; exact hsucc
    have hpcomp : p.state = .completed := by
      by_cases hrj : r.jid = i
      · exact hpar p hmem (hrj ▸ hsucc')
      · have hfr' : f r = r := hfne r hrj
        have hstr : StartedSt r.state := by
          rw [← hfr, hfr'] at hst; exact hst
        exact hPC r hr hstr p hmem hsucc'
    rw [← hfp, hfkeep p hmem hpcomp]
    exact hpcomp
  · intro p' hp' hpf q' hq' hsucc
    rcases List.mem_map.mp hp' with ⟨p, hmem, hfp⟩
    rcases List.mem_map.mp hq' with ⟨q, hqmem, hfq⟩
    have hpj : p.jid ≠ i := by
      intro h
      have := honly p hmem h
      rw [this] at hfp
      rw [← hfp, hfeq rec (lookup_jid hl)] at hpf
      exact JobState.noConfusion hpf
    have hfp' : f p = p := hfne p hpj
    have hpf' : p.state = .failed := by rw [← hfp, hfp'] at hpf; exact hpf
    have hsucc' : q.jid ∈ p.successors := by
      have e1 : q'.jid = q.jid := by rw [← hfq, (hshape q).1]
      have e2 : p'.successors = p.successors := by rw [← hfp, (hshape p).2.1]
      rw [e1] at hsucc; rw [e2] at hsucc; exact hsucc
    have hqf : q.state = .failed := hFC p hmem hpf' q hqmem hsucc'
    have hqj : q.jid ≠ i := by
      intro h
      have := honly q hqmem h
      rw [this, hu] at hqf
      exact JobState.noConfusion hqf
    rw [← hfq, hfne q hqj]
    exact hqf

theorem incompleteParents_append (l1 l2 : GraphState) (j : Nat) :
    incompleteParents (l1 ++ l2) j =
      incompleteParents l1 j + incompleteParents l2 j :=
  List.countP_append _ _ _

theorem lookup_ne_none_of_mem {g : GraphState} {r : JobRecord}
    (hr : r ∈ g) : lookup g r.jid ≠ none := by
  intro h
  exact (lookup_eq_none.mp h) r hr rfl

theorem incompleteParents_fresh_zero {g : GraphState}
    {newRecs : List JobRecord} {j : Nat} (hex : lookup g j ≠ none)
    (hfr : ∀ s ∈ newRecs, ∀ t ∈ s.successors, lookup g t = none) :
    incompleteParents newRecs j = 0 := by
  rw [incompleteParents]
  apply List.countP_eq_zero.mpr
  intro s hs hq
  rw [Bool.and_eq_true] at hq
  have hmem : j ∈ s.successors := by simpa using hq.1
  exact hex (hfr s hs j hmem)

theorem inv_applySuccess {g : GraphState} {i : Nat} {rec : JobRecord}
    {newRecs : List JobRecord} (hinv : Inv g) (hl : lookup g i = some rec)
    (hd : rec.state = .dispatched) (hF : FreshOk g i newRecs) :
    Inv (applySuccess g rec newRecs) := by
  obtain ⟨hU, hP, hPC, hFC⟩ := hinv
  obtain ⟨hNodup, hFr⟩ := hF
  have hji : rec.jid = i := lookup_jid hl
  have honly := lookup_unique hU hl
  have happ : applySuccess g rec newRecs =
      g.map (fun r =>
        if r.jid == rec.jid then { r with state := JobState.completed }
        else if rec.successors.contains r.jid then
          { r with predecessorsRemaining := r.predecessorsRemaining - 1 }
        else r) ++ newRecs := rfl
  set f := fun r : JobRecord =>
    if r.jid == rec.jid then { r with state := JobState.completed }
    else if rec.successors.contains r.jid then
      { r with predecessorsRemaining := r.predecessorsRemaining - 1 }
    else r with hfdef
  have hjid : ∀ r : JobRecord, (f r).jid = r.jid := by
    intro r
    by_cases h1 : r.jid = rec.jid
    · simp [hfdef, h1]
    · by_cases h2 : r.jid ∈ rec.successors <;>
        simp [hfdef, h1, h2]
  have hsucc : ∀ r : JobRecord, (f r).successors = r.successors := by
    intro r
    by_cases h1 : r.jid = rec.jid
    · simp [hfdef, h1]
    · by_cases h2 : r.jid ∈ rec.successors <;>
        simp [hfdef, h1, h2]
  have hstate : ∀ r : JobRecord, r.jid ≠ rec.jid → (f r).state = r.state := by
    intro r h1
    by_cases h2 : r.jid ∈ rec.successors <;>
      simp [hfdef, h1, h2]
  have hstate_eq : ∀ r : JobRecord, r.jid = rec.jid →
      (f r).state = .completed := by
    intro r h1; simp [hfdef, h1]
  have hcompl : ∀ r : JobRecord, r.state = .completed →
      (f r).state = .completed := by
    intro r hc
    by_cases h1 : r.jid = rec.jid
    · exact hstate_eq r h1
    · rw [hstate r h1]; exact hc
  have hpred_dec : ∀ r : JobRecord, r.jid ≠ rec.jid →
      r.jid ∈ rec.successors →
      (f r).predecessorsRemaining = r.predecessorsRemaining - 1 := by
    intro r h1 h2; simp [hfdef, h1, h2]
  have hpred_keep : ∀ r : JobRecord,
      r.jid = rec.jid ∨ r.jid ∉ rec.successors →
      (f r).predecessorsRemaining = r.predecessorsRemaining := by
    intro r h1
    rcases h1 with h1 | h1
    · simp [hfdef, h1]
    · by_cases h2 : r.jid = rec.jid <;> simp [hfdef, h1, h2]
  have hmono : ∀ j : Nat, ∀ p ∈ g,
      ((f p).successors.contains j && !((f p).state == .completed)) = true →
      (p.successors.contains j && !(p.state == .completed)) = true := by
    intro j p _ hc
    rw [Bool.and_eq_true] at hc ⊢
    rw [hsucc] at hc
    refine ⟨hc.1, ?_⟩
    rcases hc with ⟨_, hc2⟩
    simp only [Bool.not_eq_true', beq_eq_false_iff_ne, ne_eq] at hc2 ⊢
    exact fun h => hc2 (hcompl p h)
  have hmaple : ∀ j : Nat,
      incompleteParents (g.map f) j ≤ incompleteParents g j := by
    intro j
    rw [incompleteParents, incompleteParents, List.countP_map]
    exact List.countP_mono_left (fun p hp => hmono j p hp)
  rw [happ]
  refine ⟨?_, ?_, ?_, ?_⟩
  · unfold UniqueIds
    rw [List.map_append, List.nodup_append]
    refine ⟨uniqueIds_map hjid hU, ?_, ?_⟩
    · exact hNodup.map _ (fun a b h => h)
    · intro a ha hb
      rw [List.map_map] at ha
      rcases List.mem_map.mp ha with ⟨r, hr, hra⟩
      rcases List.mem_map.mp hb with ⟨s, hs, hsa⟩
      have hfresh : lookup g s.jid = none := (hFr s hs).1
      have := lookup_eq_none.mp hfresh r hr
      apply this
      rw [show ((fun r : JobRecord => r.jid) ∘ f) r = r.jid from hjid r] at hra
      rw [hra, ← hsa]
  · intro r' hr'
    rcases List.mem_append.mp hr' with hr' | hr'
    · rcases List.mem_map.mp hr' with ⟨r, hr, hfr⟩
      have hjj : r'.jid = r.jid := by rw [← hfr]; exact hjid r
      rw [hjj, incompleteParents_append]
      have hzero : incompleteParents newRecs r.jid = 0 :=
        incompleteParents_fresh_zero (lookup_ne_none_of_mem hr)
          (fun s hs t ht => (hFr s hs).2.2.1 t ht)
      rw [hzero]
      by_cases h1 : r.jid = rec.jid
      · have hpk : r'.predecessorsRemaining = r.predecessorsRemaining := by
          rw [← hfr]; exact hpred_keep r (Or.inl h1)
        rw [hpk]
        have h3 := hmaple r.jid
        have h4 := hP r hr
        omega
      · by_cases h2 : r.jid ∈ rec.successors
        · have hpk : r'.predecessorsRemaining =
              r.predecessorsRemaining - 1 := by
            rw [← hfr]; exact hpred_dec r h1 h2
          have hstrict : incompleteParents (g.map f) r.jid <
              incompleteParents g r.jid := by
            rw [incompleteParents, incompleteParents, List.countP_map]
            refine countP_lt_of_witness (lookup_mem hl) ?_ ?_
              (fun p hp => hmono r.jid p hp)
            · have : (f rec).state = .completed := hstate_eq rec rfl
              simp [this]
            · rw [Bool.and_eq_true]
              refine ⟨by simpa using h2, ?_⟩
              simp [hd]
          have := hP r hr
          omega
        · have hpk : r'.predecessorsRemaining = r.predecessorsRemaining := by
            rw [← hfr]
            exact hpred_keep r (Or.inr h2)
          rw [hpk]
          have h3 := hmaple r.jid
          have := hP r hr
          omega
    · have hji' : lookup g r'.jid = none := (hFr r' hr').1
      rw [incompleteParents_append]
      have hmap0 : incompleteParents (g.map f) r'.jid = 0 := by
        rw [incompleteParents, List.countP_map]
        apply List.countP_eq_zero.mpr
        intro p hp hq
        rw [Function.comp_apply, Bool.and_eq_true] at hq
        rcases hq with ⟨hq1, hq2⟩
        rw [hsucc] at hq1
        have hmem : r'.jid ∈ p.successors := by simpa using hq1
        have hpji : p.jid = i := (hFr r' hr').2.2.2.1 p hp hmem
        have hprec : p = rec := honly p hp hpji
        have : (f p).state = .completed := hstate_eq p (by rw [hprec])
        rw [this] at hq2
        simp at hq2
      rw [hmap0]
      have hle : incompleteParents newRecs r'.jid ≤
          newRecs.countP (fun p => p.successors.contains r'.jid) := by
        rw [incompleteParents]
        refine List.countP_mono_left (fun p _ hq => ?_)
        rw [Bool.and_eq_true] at hq
        exact hq.1
      have := (hFr r' hr').2.2.2.2
      omega
  · intro r' hr' hst p' hp' hsm
    rcases List.mem_append.mp hr' with hr' | hr'
    · rcases List.mem_map.mp hr' with ⟨r, hr, hfr⟩
      have hjj : r'.jid = r.jid := by rw [← hfr]; exact hjid r
      have hpcomp : ∀ p ∈ g, r.jid ∈ p.successors → p.state = .completed := by
        by_cases h1 : r.jid = rec.jid
        · intro p hp hmem
          exact hPC rec (lookup_mem hl) (Or.inl hd) p hp (by rw [← h1]; exact hmem)
        · intro p hp hmem
          have hst' : StartedSt r.state := by
            have : r'.state = r.state := by rw [← hfr]; exact hstate r h1
            rw [this] at hst; exact hst
          exact hPC r hr hst' p hp hmem
      rcases List.mem_append.mp hp' with hp' | hp'
      · rcases List.mem_map.mp hp' with ⟨p, hp, hfp⟩
        have hmem : r.jid ∈ p.successors := by
          have e2 : p'.successors = p.successors := by
            rw [← hfp]; exact hsucc p
          rw [hjj] at hsm; rw [e2] at hsm; exact hsm
        have hc := hpcomp p hp hmem
        rw [← hfp]
        exact hcompl p hc
      · have hmem : r.jid ∈ p'.successors := by rw [← hjj]; exact hsm
        have := (hFr p' hp').2.2.1 r.jid hmem
        exact absurd this (lookup_ne_none_of_mem hr)
    · have hun : r'.state = .unissued := (hFr r' hr').2.1
      rw [hun] at hst
      rcases hst with hst | hst <;> exact JobState.noConfusion hst
  · intro p' hp' hpf q' hq' hsm
    rcases List.mem_append.mp hp' with hp' | hp'
    · rcases List.mem_map.mp hp' with ⟨p, hp, hfp⟩
      have hpji : p.jid ≠ rec.jid := by
        intro h
        have : p'.state = .completed := by rw [← hfp]; exact hstate_eq p h
        rw [this] at hpf
        exact JobState.noConfusion hpf
      have hpf' : p.state = .failed := by
        have : p'.state = p.state := by rw [← hfp]; exact hstate p hpji
        rw [this] at hpf; exact hpf
      have hsuccp : p'.successors = p.successors := by
        rw [← hfp]; exact hsucc p
      rcases List.mem_append.mp hq' with hq' | hq'
      · rcases List.mem_map.mp hq' with ⟨q, hq, hfq⟩
        have hmem : q.jid ∈ p.successors := by
          have e1 : q'.jid = q.jid := by rw [← hfq]; exact hjid q
          rw [e1] at hsm; rw [hsuccp] at hsm; exact hsm
        have hqf : q.state = .failed := hFC p hp hpf' q hq hmem
        have hqji : q.jid ≠ rec.jid := by
          intro h
          have : q = rec := honly q hq (by rw [← hji]; exact h)
          rw [this, hd] at hqf
          exact JobState.noConfusion hqf
        have : q'.state = q.state := by rw [← hfq]; exact hstate q hqji
        rw [this]; exact hqf
      · have hmem : q'.jid ∈ p.successors := by rw [hsuccp] at hsm; exact hsm
        have hpji2 : p.jid = i := (hFr q' hq').2.2.2.1 p hp hmem
        have : p = rec := honly p hp hpji2
        rw [this, hd] at hpf'
        exact JobState.noConfusion hpf'
    · have hun : p'.state = .unissued := (hFr p' hp').2.1
      rw [hun] at hpf
      exact JobState.noConfusion hpf

theorem applyFailure_exhausted {g : GraphState} {rec : JobRecord}
    (h : rec.retriesRemaining - 1 = 0) :
    applyFailure g rec = propagate g.length
      (g.map (fun r => if r.jid == rec.jid then
        { r with retriesRemaining := 0, state := .failed } else r)) := by
  unfold applyFailure
  simp [h]

theorem applyFailure_retry {g : GraphState} {rec : JobRecord}
    (h : rec.retriesRemaining - 1 ≠ 0) :
    applyFailure g rec =
      g.map (fun r => if r.jid == rec.jid then
        { r with retriesRemaining := rec.retriesRemaining - 1, state := .unissued }
        else r) := by
  unfold applyFailure
  simp [h]

theorem inv_applyFailure {g : GraphState} {i : Nat} {rec : JobRecord}
    (hinv : Inv g) (hl : lookup g i = some rec)
    (hd : rec.state = .dispatched) : Inv (applyFailure g rec) := by
  obtain ⟨hU, hP, hPC, hFC⟩ := hinv
  have hji : rec.jid = i := lookup_jid hl
  have honly := lookup_unique hU hl
  by_cases hret : rec.retriesRemaining - 1 = 0
  · rw [applyFailure_exhausted hret]
    set f1 := fun r : JobRecord => if r.jid == rec.jid then
      { r with retriesRemaining := 0, state := JobState.failed } else r
      with hf1def
    have hjid1 : ∀ r : JobRecord, (f1 r).jid = r.jid := by
      intro r; by_cases h1 : r.jid = rec.jid <;> simp [hf1def, h1]
    have hsucc1 : ∀ r : JobRecord, (f1 r).successors = r.successors := by
      intro r; by_cases h1 : r.jid = rec.jid <;> simp [hf1def, h1]
    have hpred1 : ∀ r : JobRecord,
        (f1 r).predecessorsRemaining = r.predecessorsRemaining := by
      intro r; by_cases h1 : r.jid = rec.jid <;> simp [hf1def, h1]
    have hstate1 : ∀ r : JobRecord, r.jid ≠ rec.jid →
        (f1 r).state = r.state := by
      intro r h1; simp [hf1def, h1]
    have hstate1eq : ∀ r : JobRecord, r.jid = rec.jid →
        (f1 r).state = .failed := by
      intro r h1; simp [hf1def, h1]
    have hcompl1 : ∀ p ∈ g, p.state = .completed → f1 p = p := by
      intro p hp hc
      by_cases h1 : p.jid = rec.jid
      · have : p = rec := honly p hp (by rw [← hji]; exact h1)
        rw [this, hd] at hc
        exact JobState.noConfusion hc
      · simp [hf1def, h1]
    set G1 := g.map f1 with hG1def
    have hU1 : UniqueIds G1 := uniqueIds_map hjid1 hU
    have hCPC1 : CompParentsComp G1 := by
      intro r' hr' hs' p' hp' hsm
      rcases List.mem_map.mp hr' with ⟨r, hr, hfr⟩
      rcases List.mem_map.mp hp' with ⟨p, hp, hfp⟩
      have hrji : r.jid ≠ rec.jid := by
        intro h
        have : r'.state = .failed := by rw [← hfr]; exact hstate1eq r h
        rw [this] at hs'
        exact JobState.noConfusion hs'
      have hrc : r.state = .completed := by
        have : r'.state = r.state := by rw [← hfr]; exact hstate1 r hrji
        rw [this] at hs'; exact hs'
      have hmem : r.jid ∈ p.successors := by
        have e1 : r'.jid = r.jid := by rw [← hfr]; exact hjid1 r
        have e2 : p'.successors = p.successors := by
          rw [← hfp]; exact hsucc1 p
        rw [e1] at hsm; rw [e2] at hsm; exact hsm
      have hpc : p.state = .completed := hPC r hr (Or.inr hrc) p hp hmem
      rw [← hfp, hcompl1 p hp hpc]
      exact hpc
    rcases propagate_map g.length G1 with ⟨F, hFmap, hFshape, hFcomp⟩
    have hlen : G1.length = g.length := by rw [hG1def, List.length_map]
    rw [hFmap]
    have hcomplF : ∀ p ∈ G1, p.state = .completed → F p = p :=
      fun p hp hc => hFcomp hCPC1 p hp hc
    refine ⟨uniqueIds_map (fun r => (hFshape r).1) hU1, ?_, ?_, ?_⟩
    · intro r' hr'
      rcases List.mem_map.mp hr' with ⟨r1, hr1, hfr1⟩
      rcases List.mem_map.mp hr1 with ⟨r, hr, hfr⟩
      have hjj : r'.jid = r.jid := by
        rw [← hfr1, (hFshape r1).1, ← hfr, hjid1 r]
      have hpp : r'.predecessorsRemaining = r.predecessorsRemaining := by
        rw [← hfr1, (hFshape r1).2.2.1, ← hfr, hpred1 r]
      have hle1 : incompleteParents (G1.map F) r.jid ≤
          incompleteParents G1 r.jid := by
        refine incompleteParents_map_le r.jid (fun p hp => ?_)
        refine ⟨(hFshape p).2.1, fun hc => ?_⟩
        rw [hcomplF p hp hc]; exact hc
      have hle2 : incompleteParents G1 r.jid ≤ incompleteParents g r.jid := by
        rw [hG1def]
        refine incompleteParents_map_le r.jid (fun p hp => ?_)
        refine ⟨hsucc1 p, fun hc => ?_⟩
        rw [hcompl1 p hp hc]; exact hc
      have := hP r hr
      rw [hjj, hpp]
      omega
    · intro r' hr' hst p' hp' hsm
      rcases List.mem_map.mp hr' with ⟨r1, hr1, hfr1⟩
      rcases List.mem_map.mp hr1 with ⟨r, hr, hfr⟩
      rcases List.mem_map.mp hp' with ⟨p1, hp1, hfp1⟩
      rcases List.mem_map.mp hp1 with ⟨p, hp, hfp⟩
      have hs1 : r1.state = r'.state := by
        rcases (hFshape r1).2.2.2.2 with h' | h'
        · rw [← hfr1, h']
        · rw [← hfr1] at hst
          rw [h'] at hst
          rcases hst with hst | hst <;> exact absurd hst (by simp)
      have hst1 : StartedSt r1.state := by rw [hs1]; exact hst
      have hrji : r.jid ≠ rec.jid := by
        intro h
        have : r1.state = .failed := by rw [← hfr]; exact hstate1eq r h
        rw [this] at hst1
        rcases hst1 with h' | h' <;> exact JobState.noConfusion h'
      have hstr : StartedSt r.state := by
        have : r1.state = r.state := by rw [← hfr]; exact hstate1 r hrji
        rw [← this]; exact hst1
      have hmem : r.jid ∈ p.successors := by
        have e1 : r'.jid = r.jid := by
          rw [← hfr1, (hFshape r1).1, ← hfr, hjid1 r]
        have e2 : p'.successors = p.successors := by
          rw [← hfp1, (hFshape p1).2.1, ← hfp, hsucc1 p]
        rw [e1] at hsm; rw [e2] at hsm; exact hsm
      have hpc : p.state = .completed := hPC r hr hstr p hp hmem
      have hfp_id : f1 p = p := hcompl1 p hp hpc
      have hp1c : p1.state = .completed := by rw [← hfp, hfp_id]; exact hpc
      rw [← hfp1, hcomplF p1 hp1 hp1c]
      exact hp1c
    · have := failedClosed_propagate G1
      rw [hlen] at this
      rw [hFmap] at this
      exact this
  · rw [applyFailure_retry hret]
    set f2 := fun r : JobRecord => if r.jid == rec.jid then
      { r with retriesRemaining := rec.retriesRemaining - 1, state := JobState.unissued }
      else r with hf2def
    have hjid2 : ∀ r : JobRecord, (f2 r).jid = r.jid := by
      intro r; by_cases h1 : r.jid = rec.jid <;> simp [hf2def, h1]
    have hsucc2 : ∀ r : JobRecord, (f2 r).successors = r.successors := by
      intro r; by_cases h1 : r.jid = rec.jid <;> simp [hf2def, h1]
    have hpred2 : ∀ r : JobRecord,
        (f2 r).predecessorsRemaining = r.predecessorsRemaining := by
      intro r; by_cases h1 : r.jid = rec.jid <;> simp [hf2def, h1]
    have hstate2 : ∀ r : JobRecord, r.jid ≠ rec.jid →
        (f2 r).state = r.state := by
      intro r h1; simp [hf2def, h1]
    have hstate2eq : ∀ r : JobRecord, r.jid = rec.jid →
        (f2 r).state = .unissued := by
      intro r h1; simp [hf2def, h1]
    have hcompl2 : ∀ p ∈ g, p.state = .completed → f2 p = p := by
      intro p hp hc
      by_cases h1 : p.jid = rec.jid
      · have : p = rec := honly p hp (by rw [← hji]; exact h1)
        rw [this, hd] at hc
        exact JobState.noConfusion hc
      · simp [hf2def, h1]
    refine ⟨uniqueIds_map hjid2 hU, ?_, ?_, ?_⟩
    · intro r' hr'
      rcases List.mem_map.mp hr' with ⟨r, hr, hfr⟩
      have hjj : r'.jid = r.jid := by rw [← hfr, hjid2 r]
      have hpp : r'.predecessorsRemaining = r.predecessorsRemaining := by
        rw [← hfr, hpred2 r]
      have hle : incompleteParents (g.map f2) r.jid ≤
          incompleteParents g r.jid := by
        refine incompleteParents_map_le r.jid (fun p hp => ?_)
        refine ⟨hsucc2 p, fun hc => ?_⟩
        rw [hcompl2 p hp hc]; exact hc
      have := hP r hr
      rw [hjj, hpp]
      omega
    · intro r' hr' hst p' hp' hsm
      rcases List.mem_map.mp hr' with ⟨r, hr, hfr⟩
      rcases List.mem_map.mp hp' with ⟨p, hp, hfp⟩
      have hrji : r.jid ≠ rec.jid := by
        intro h
        have : r'.state = .unissued := by rw [← hfr]; exact hstate2eq r h
        rw [this] at hst
        rcases hst with h' | h' <;> exact JobState.noConfusion h'
      have hstr : StartedSt r.state := by
        have : r'.state = r.state := by rw [← hfr]; exact hstate2 r hrji
        rw [this] at hst; exact hst
      have hmem : r.jid ∈ p.successors := by
        have e1 : r'.jid = r.jid := by rw [← hfr, hjid2 r]
        have e2 : p'.successors = p.successors := by rw [← hfp, hsucc2 p]
        rw [e1] at hsm; rw [e2] at hsm; exact hsm
      have hpc : p.state = .completed := hPC r hr hstr p hp hmem
      rw [← hfp, hcompl2 p hp hpc]
      exact hpc
    · intro p' hp' hpf q' hq' hsm
      rcases List.mem_map.mp hp' with ⟨p, hp, hfp⟩
      rcases List.mem_map.mp hq' with ⟨q, hq, hfq⟩
      have hpji : p.jid ≠ rec.jid := by
        intro h
        have : p'.state = .unissued := by rw [← hfp]; exact hstate2eq p h
        rw [this] at hpf
        exact JobState.noConfusion hpf
      have hpf' : p.state = .failed := by
        have : p'.state = p.state := by rw [← hfp]; exact hstate2 p hpji
        rw [this] at hpf; exact hpf
      have hmem : q.jid ∈ p.successors := by
        have e1 : q'.jid = q.jid := by rw [← hfq, hjid2 q]
        have e2 : p'.successors = p.successors := by rw [← hfp, hsucc2 p]
        rw [e1] at hsm; rw [e2] at hsm; exact hsm
      have hqf : q.state = .failed := hFC p hp hpf' q hq hmem
      have hqji : q.jid ≠ rec.jid := by
        intro h
        have : q = rec := honly q hq (by rw [← hji]; exact h)
        rw [this, hd] at hqf
        exact JobState.noConfusion hqf
      have : q'.state = q.state := by rw [← hfq]; exact hstate2 q hqji
      rw [this]; exact hqf

/-! ### Reduction of recordCompletion and preservation along runs -/

theorem recordCompletion_success_eq {g : GraphState} {i : Nat}
    {rec : JobRecord} {newRecs : List JobRecord}
    (hl : lookup g i = some rec) (hd : rec.state = .dispatched) :
    recordCompletion g i .success newRecs = applySuccess g rec newRecs := by
  simp [recordCompletion, hl, hd]

theorem recordCompletion_failure_eq {g : GraphState} {i : Nat}
    {rec : JobRecord} {newRecs : List JobRecord}
    (hl : lookup g i = some rec) (hd : rec.state = .dispatched) :
    recordCompletion g i .failure newRecs = applyFailure g rec := by
  simp [recordCompletion, hl, hd]

theorem inv_step {g g' : GraphState} {e : Event} (hinv : Inv g)
    (hs : Step g e g') : Inv g' := by
  cases hs with
  | dispatch i rec hl hu hp => exact inv_markDispatched hinv hl hu hp
  | complete i rec o newRecs hl hd hF hfail =>
    cases o with
    | success =>
      rw [recordCompletion_success_eq hl hd]
      exact inv_applySuccess hinv hl hd hF
    | failure =>
      rw [recordCompletion_failure_eq hl hd]
      exact inv_applyFailure hinv hl hd

theorem inv_run {g g' : GraphState} {t : List Event} (hinv : Inv g)
    (hr : Run g t g') : Inv g' := by
  induction hr with
  | nil => exact hinv
  | cons hs _ ih => exact ih (inv_step hinv hs)

theorem lookup_markDispatched (g : GraphState) (i j : Nat) :
    lookup (markDispatched g i) j = (lookup g j).map
      (fun r => if r.jid == i then { r with state := .dispatched } else r) :=
  lookup_map (fun r => by by_cases h : r.jid = i <;> simp [h]) j

theorem lookup_applySuccess {g : GraphState} {rec : JobRecord}
    {newRecs : List JobRecord} {j : Nat} {r : JobRecord}
    (hl : lookup g j = some r) :
    lookup (applySuccess g rec newRecs) j = some
      (if r.jid == rec.jid then { r with state := .completed }
       else if rec.successors.contains r.jid then
         { r with predecessorsRemaining := r.predecessorsRemaining - 1 }
       else r) := by
  rw [applySuccess]
  apply lookup_append
  rw [lookup_map, hl]
  · rfl
  · intro r'
    by_cases h1 : r'.jid = rec.jid
    · simp [h1]
    · by_cases h2 : r'.jid ∈ rec.successors <;> simp [h1, h2]

theorem lookup_propagate (k : Nat) (g : GraphState) (j : Nat) :
    ∀ {r : JobRecord}, lookup g j = some r →
      ∃ r', lookup (propagate k g) j = some r' ∧ r'.jid = r.jid ∧
        r'.successors = r.successors ∧
        r'.predecessorsRemaining = r.predecessorsRemaining ∧
        r'.retriesRemaining = r.retriesRemaining ∧
        (r'.state = r.state ∨ r'.state = .failed) := by
  intro r hl
  rcases propagate_map k g with ⟨F, hmap, hshape, _⟩
  rcases hshape r with ⟨h1, h2, h3, h4, h5⟩
  refine ⟨F r, ?_, h1, h2, h3, h4, h5⟩
  rw [hmap, lookup_map (fun x => (hshape x).1), hl]
  rfl

theorem lookup_applyFailure_self {g : GraphState} {i : Nat}
    {rec : JobRecord} (hl : lookup g i = some rec) :
    ∃ rec', lookup (applyFailure g rec) i = some rec' ∧
      rec'.retriesRemaining = rec.retriesRemaining - 1 ∧
      (rec.retriesRemaining - 1 = 0 → rec'.state = .failed) ∧
      (rec.retriesRemaining - 1 ≠ 0 → rec'.state = .unissued) := by
  have hji : rec.jid = i := lookup_jid hl
  by_cases hret : rec.retriesRemaining - 1 = 0
  · rw [applyFailure_exhausted hret]
    have hl1 : lookup (g.map (fun r => if r.jid == rec.jid then
        { r with retriesRemaining := 0, state := .failed } else r)) i =
        some { rec with retriesRemaining := 0, state := .failed } := by
      rw [lookup_map (fun r => by by_cases h : r.jid = rec.jid <;> simp [h]),
        hl]
      simp
    rcases lookup_propagate g.length _ i hl1 with
      ⟨r', hr', _, _, _, hretr, hst⟩
    refine ⟨r', hr', ?_, fun _ => ?_, fun h => absurd hret h⟩
    · rw [hretr, hret]
    · rcases hst with h | h
      · rw [h]
      · exact h
  · rw [applyFailure_retry hret]
    refine ⟨{ rec with retriesRemaining := rec.retriesRemaining - 1, state := .unissued },
      ?_, rfl, fun h => absurd h hret, fun _ => rfl⟩
    rw [lookup_map (fun r => by by_cases h : r.jid = rec.jid <;> simp [h]),
      hl]
    simp

theorem lookup_applyFailure_other {g : GraphState} {rec : JobRecord}
    {j : Nat} {r : JobRecord} (hl : lookup g j = some r)
    (hrj : r.jid ≠ rec.jid) :
    ∃ r', lookup (applyFailure g rec) j = some r' ∧ r'.jid = r.jid ∧
      r'.successors = r.successors ∧
      r'.predecessorsRemaining = r.predecessorsRemaining ∧
      r'.retriesRemaining = r.retriesRemaining ∧
      (r'.state = r.state ∨ r'.state = .failed) := by
  by_cases hret : rec.retriesRemaining - 1 = 0
  · rw [applyFailure_exhausted hret]
    have hl1 : lookup (g.map (fun x => if x.jid == rec.jid then
        { x with retriesRemaining := 0, state := .failed } else x)) j =
        some r := by
      rw [lookup_map (fun x => by by_cases h : x.jid = rec.jid <;> simp [h]),
        hl]
      simp [hrj]
    exact lookup_propagate g.length _ j hl1
  · rw [applyFailure_retry hret]
    refine ⟨r, ?_, rfl, rfl, rfl, rfl, Or.inl rfl⟩
    rw [lookup_map (fun x => by by_cases h : x.jid = rec.jid <;> simp [h]),
      hl]
    simp [hrj]

/-! ### Persistence of record facts along steps and runs -/

theorem existsId_lookup {g : GraphState} {q : Nat} (h : ExistsId g q) :
    ∃ r, lookup g q = some r := by
  cases hq : lookup g q with
  | some r => exact ⟨r, rfl⟩
  | none =>
    rcases h with ⟨r, hr, hj⟩
    exact absurd hj (lookup_eq_none.mp hq r hr)

theorem step_lookup_some {g g' : GraphState} {e : Event} {j : Nat}
    {r : JobRecord} (hs : Step g e g') (hl : lookup g j = some r) :
    ∃ r', lookup g' j = some r' := by
  cases hs with
  | dispatch i rec hlr hu hp =>
    rw [lookup_markDispatched, hl]
    exact ⟨_, rfl⟩
  | complete i rec o newRecs hlr hd hF hfail =>
    cases o with
    | success =>
      rw [recordCompletion_success_eq hlr hd]
      exact ⟨_, lookup_applySuccess hl⟩
    | failure =>
      rw [recordCompletion_failure_eq hlr hd]
      by_cases hrr : r.jid = rec.jid
      · have hij : j = i := by
          rw [← lookup_jid hl, hrr, lookup_jid hlr]
        subst hij
        rcases lookup_applyFailure_self hlr with ⟨rec', hrec', _⟩
        exact ⟨rec', hrec'⟩
      · rcases lookup_applyFailure_other hl hrr with ⟨r', hr', _⟩
        exact ⟨r', hr'⟩

theorem run_lookup_some {g g' : GraphState} {t : List Event} {j : Nat}
    {r : JobRecord} (hr : Run g t g') (hl : lookup g j = some r) :
    ∃ r', lookup g' j = some r' := by
  induction hr generalizing r with
  | nil => exact ⟨r, hl⟩
  | cons hs _ ih =>
    rcases step_lookup_some hs hl with ⟨r1, hl1⟩
    exact ih hl1

theorem step_existsId {g g' : GraphState} {e : Event} {j : Nat}
    (hs : Step g e g') (h : ExistsId g j) : ExistsId g' j := by
  rcases existsId_lookup h with ⟨r, hl⟩
  rcases step_lookup_some hs hl with ⟨r', hl'⟩
  exact ⟨r', lookup_mem hl', lookup_jid hl'⟩

theorem step_state_stays {g g' : GraphState} {e : Event} {j : Nat}
    {r : JobRecord} (hs : Step g e g') (hl : lookup g j = some r)
    (hst : r.state = .dispatched ∨ r.state = .failed)
    (hnc : e.isCompletionOf j = false) :
    ∃ r', lookup g' j = some r' ∧
      (r'.state = .dispatched ∨ r'.state = .failed) := by
  cases hs with
  | dispatch i rec hlr hu hp =>
    by_cases hij : i = j
    · subst hij
      rw [hlr] at hl
      cases Option.some.inj hl
      rw [hu] at hst
      rcases hst with h | h <;> exact absurd h (by simp)
    · rw [lookup_markDispatched, hl]
      have hne : (r.jid == i) = false := by
        simp only [beq_eq_false_iff_ne, ne_eq, lookup_jid hl]
        exact fun h => hij h.symm
      refine ⟨_, rfl, ?_⟩
      simp only [Option.map_some, hne, Bool.false_eq_true, if_false]
      exact hst
  | complete i rec o newRecs hlr hd hF hfail =>
    have hij : i ≠ j := by
      simp only [Event.isCompletionOf, beq_eq_false_iff_ne, ne_eq] at hnc
      exact hnc
    have hrr : r.jid ≠ rec.jid := by
      rw [lookup_jid hl, lookup_jid hlr]
      exact fun h => hij h.symm
    cases o with
    | success =>
      rw [recordCompletion_success_eq hlr hd]
      refine ⟨_, lookup_applySuccess hl, ?_⟩
      have h1 : (r.jid == rec.jid) = false := by simpa using hrr
      simp only [h1, Bool.false_eq_true, if_false]
      by_cases h2 : r.jid ∈ rec.successors
      · simp only [if_pos (by simpa using h2 : rec.successors.contains r.jid = true)]
        exact hst
      · simp only [if_neg (by simpa using h2 : ¬rec.successors.contains r.jid = true)]
        exact hst
    | failure =>
      rw [recordCompletion_failure_eq hlr hd]
      rcases lookup_applyFailure_other hl hrr with
        ⟨r', hr', _, _, _, _, hstate⟩
      refine ⟨r', hr', ?_⟩
      rcases hstate with h | h
      · rw [h]; exact hst
      · exact Or.inr h

theorem run_state_stays {g g' : GraphState} {t : List Event} {j : Nat}
    {r : JobRecord} (hr : Run g t g') (hl : lookup g j = some r)
    (hst : r.state = .dispatched ∨ r.state = .failed)
    (hnc : ∀ e ∈ t, e.isCompletionOf j = false) :
    ∃ r', lookup g' j = some r' ∧
      (r'.state = .dispatched ∨ r'.state = .failed) := by
  induction hr generalizing r with
  | nil => exact ⟨r, hl, hst⟩
  | cons hs _ ih =>
    rename_i g g1 g2 e t hrun
    rcases step_state_stays hs hl hst (hnc e (List.mem_cons_self e t)) with
      ⟨r1, hl1, hst1⟩
    exact ih hl1 hst1 (fun e' he' => hnc e' (List.mem_cons_of_mem _ he'))

theorem compParentsComp_failAll {g : GraphState} {i : Nat} {rec : JobRecord}
    (hU : UniqueIds g) (hPC : ParentsCompleted g)
    (hl : lookup g i = some rec) (hd : rec.state = .dispatched) :
    CompParentsComp (g.map (fun r => if r.jid == rec.jid then
      { r with retriesRemaining := 0, state := JobState.failed } else r)) := by
  have hji : rec.jid = i := lookup_jid hl
  have honly := lookup_unique hU hl
  set f1 := fun r : JobRecord => if r.jid == rec.jid then
    { r with retriesRemaining := 0, state := JobState.failed } else r
    with hf1def
  have hjid1 : ∀ r : JobRecord, (f1 r).jid = r.jid := by
    intro r; by_cases h1 : r.jid = rec.jid <;> simp [hf1def, h1]
  have hsucc1 : ∀ r : JobRecord, (f1 r).successors = r.successors := by
    intro r; by_cases h1 : r.jid = rec.jid <;> simp [hf1def, h1]
  have hstate1 : ∀ r : JobRecord, r.jid ≠ rec.jid →
      (f1 r).state = r.state := by
    intro r h1; simp [hf1def, h1]
  have hstate1eq : ∀ r : JobRecord, r.jid = rec.jid →
      (f1 r).state = .failed := by
    intro r h1; simp [hf1def, h1]
  have hcompl1 : ∀ p ∈ g, p.state = .completed → f1 p = p := by
    intro p hp hc
    by_cases h1 : p.jid = rec.jid
    · have : p = rec := honly p hp (by rw [← hji]; exact h1)
      rw [this, hd] at hc
      exact JobState.noConfusion hc
    · simp [hf1def, h1]
  intro r' hr' hs' p' hp' hsm
  rcases List.mem_map.mp hr' with ⟨r, hr, hfr⟩
  rcases List.mem_map.mp hp' with ⟨p, hp, hfp⟩
  have hrji : r.jid ≠ rec.jid := by
    intro h
    have : r'.state = .failed := by rw [← hfr]; exact hstate1eq r h
    rw [this] at hs'
    exact JobState.noConfusion hs'
  have hrc : r.state = .completed := by
    have : r'.state = r.state := by rw [← hfr]; exact hstate1 r hrji
    rw [this] at hs'; exact hs'
  have hmem : r.jid ∈ p.successors := by
    have e1 : r'.jid = r.jid := by rw [← hfr]; exact hjid1 r
    have e2 : p'.successors = p.successors := by rw [← hfp]; exact hsucc1 p
    rw [e1] at hsm; rw [e2] at hsm; exact hsm
  have hpc : p.state = .completed := hPC r hr (Or.inr hrc) p hp hmem
  rw [← hfp, hcompl1 p hp hpc]
  exact hpc

theorem step_completed_stays {g g' : GraphState} {e : Event} {a : Nat}
    {ra : JobRecord} (hinv : Inv g) (hs : Step g e g')
    (hl : lookup g a = some ra) (hc : ra.state = .completed) :
    ∃ ra', lookup g' a = some ra' ∧ ra'.state = .completed := by
  obtain ⟨hU, hP, hPC, hFC⟩ := hinv
  cases hs with
  | dispatch i rec hlr hu hp =>
    by_cases hij : i = a
    · subst hij
      rw [hlr] at hl
      cases Option.some.inj hl
      rw [hu] at hc
      exact absurd hc (by simp)
    · rw [lookup_markDispatched, hl]
      have hne : (ra.jid == i) = false := by
        simp only [beq_eq_false_iff_ne, ne_eq, lookup_jid hl]
        exact fun h => hij h.symm
      refine ⟨_, rfl, ?_⟩
      simp only [Option.map_some, hne, Bool.false_eq_true, if_false]
      exact hc
  | complete i rec o newRecs hlr hd hF hfail =>
    have hia : i ≠ a := by
      intro h
      subst h
      rw [hlr] at hl
      cases Option.some.inj hl
      rw [hd] at hc
      exact absurd hc (by simp)
    have hraj : ra.jid ≠ rec.jid := by
      rw [lookup_jid hl, lookup_jid hlr]
      exact fun h => hia h.symm
    cases o with
    | success =>
      rw [recordCompletion_success_eq hlr hd]
      refine ⟨_, lookup_applySuccess hl, ?_⟩
      have h1 : (ra.jid == rec.jid) = false := by simpa using hraj
      simp only [h1, Bool.false_eq_true, if_false]
      by_cases h2 : ra.jid ∈ rec.successors
      · simp only [if_pos (by simpa using h2 : rec.successors.contains ra.jid = true)]
        exact hc
      · simp only [if_neg (by simpa using h2 : ¬rec.successors.contains ra.jid = true)]
        exact hc
    | failure =>
      rw [recordCompletion_failure_eq hlr hd]
      by_cases hret : rec.retriesRemaining - 1 = 0
      · rw [applyFailure_exhausted hret]
        set f1 := fun r : JobRecord => if r.jid == rec.jid then
          { r with retriesRemaining := 0, state := JobState.failed } else r
          with hf1def
        have hjid1 : ∀ r : JobRecord, (f1 r).jid = r.jid := by
          intro r; by_cases h1 : r.jid = rec.jid <;> simp [hf1def, h1]
        have hfra : f1 ra = ra := by
          rw [hf1def]
          exact if_neg (by simpa using hraj)
        have hG1 : lookup (g.map f1) a = some ra := by
          rw [lookup_map hjid1, hl, Option.map_some', hfra]
        have hCPC1 : CompParentsComp (g.map f1) :=
          compParentsComp_failAll hU hPC hlr hd
        rcases propagate_map g.length (g.map f1) with ⟨F, hmap, hshape, hFcomp⟩
        rw [hmap, lookup_map (fun x => (hshape x).1), hG1]
        have hFra : F ra = ra :=
          hFcomp hCPC1 ra (lookup_mem hG1) hc
        refine ⟨F ra, rfl, ?_⟩
        rw [hFra]; exact hc
      · rw [applyFailure_retry hret]
        rw [lookup_map (fun x => by by_cases h : x.jid = rec.jid <;>
          simp [h]), hl]
        have h1 : (ra.jid == rec.jid) = false := by simpa using hraj
        refine ⟨_, rfl, ?_⟩
        simp only [Option.map_some, h1, Bool.false_eq_true, if_false]
        exact hc

theorem run_completed_stays {g g' : GraphState} {t : List Event} {a : Nat}
    {ra : JobRecord} (hinv : Inv g) (hr : Run g t g')
    (hl : lookup g a = some ra) (hc : ra.state = .completed) :
    ∃ ra', lookup g' a = some ra' ∧ ra'.state = .completed := by
  induction hr generalizing ra with
  | nil => exact ⟨ra, hl, hc⟩
  | cons hs hrun ih =>
    rcases step_completed_stays hinv hs hl hc with ⟨r1, hl1, hc1⟩
    exact ih (inv_step hinv hs) hl1 hc1

/-! ### Dependency edges persist backward along a run -/

theorem edge_map_back {g : GraphState} {f : JobRecord → JobRecord}
    (hjid : ∀ r, (f r).jid = r.jid)
    (hsucc : ∀ r, (f r).successors = r.successors)
    {p q : Nat} (hE : Edge (g.map f) p q) : Edge g p q := by
  rcases hE with ⟨r', hr', hj, hmem⟩
  rcases List.mem_map.mp hr' with ⟨r, hr, hfr⟩
  refine ⟨r, hr, ?_, ?_⟩
  · rw [← hj, ← hfr, hjid]
  · rw [← hfr, hsucc] at hmem
    exact hmem

theorem step_edge_back {g g' : GraphState} {e : Event} {p q : Nat}
    (hs : Step g e g') (hE : Edge g' p q) (hq : ExistsId g q) :
    Edge g p q := by
  cases hs with
  | dispatch i rec hlr hu hp =>
    refine edge_map_back ?_ ?_ hE <;>
      intro r <;> by_cases h : r.jid = i <;> simp [markDispatched, h]
  | complete i rec o newRecs hlr hd hF hfail =>
    cases o with
    | success =>
      rw [recordCompletion_success_eq hlr hd] at hE
      rcases hE with ⟨r', hr', hj, hmem⟩
      rcases List.mem_append.mp hr' with hr' | hr'
      · refine edge_map_back (g := g) ?_ ?_ ⟨r', hr', hj, hmem⟩
        · intro r
          by_cases h1 : r.jid = rec.jid
          · simp [h1]
          · by_cases h2 : r.jid ∈ rec.successors <;> simp [h1, h2]
        · intro r
          by_cases h1 : r.jid = rec.jid
          · simp [h1]
          · by_cases h2 : r.jid ∈ rec.successors <;> simp [h1, h2]
      · have hnone : lookup g q = none := (hF.2 r' hr').2.2.1 q hmem
        rcases existsId_lookup hq with ⟨rq, hrq⟩
        rw [hnone] at hrq
        exact Option.noConfusion hrq
    | failure =>
      rw [recordCompletion_failure_eq hlr hd] at hE
      by_cases hret : rec.retriesRemaining - 1 = 0
      · rw [applyFailure_exhausted hret] at hE
        rcases propagate_map g.length (g.map (fun r =>
          if r.jid == rec.jid then
            { r with retriesRemaining := 0, state := JobState.failed }
          else r)) with ⟨F, hmap, hshape, _⟩
        rw [hmap] at hE
        have hE1 := edge_map_back (fun r => (hshape r).1)
          (fun r => (hshape r).2.1) hE
        refine edge_map_back ?_ ?_ hE1 <;>
          intro r <;> by_cases h : r.jid = rec.jid <;> simp [h]
      · rw [applyFailure_retry hret] at hE
        refine edge_map_back ?_ ?_ hE <;>
          intro r <;> by_cases h : r.jid = rec.jid <;> simp [h]

theorem run_edge_back {g g' : GraphState} {t : List Event} {p q : Nat}
    (hr : Run g t g') (hE : Edge g' p q) (hq : ExistsId g q) :
    Edge g p q := by
  induction hr with
  | nil => exact hE
  | cons hs hrun ih =>
    exact step_edge_back hs (ih hE (step_existsId hs hq)) hq

theorem reaches_src_mem {g : GraphState} {x b : Nat} (h : Reaches g x b) :
    ExistsId g x := by
  cases h with
  | single hE => rcases hE with ⟨r, hr, hj, _⟩; exact ⟨r, hr, hj⟩
  | head hE _ => rcases hE with ⟨r, hr, hj, _⟩; exact ⟨r, hr, hj⟩

theorem run_reaches_back {g g' : GraphState} {t : List Event} {a b : Nat}
    (hr : Run g t g') (hre : Reaches g' a b) (hb : ExistsId g b) :
    Reaches g a b := by
  induction hre with
  | single hE => exact Reaches.single (run_edge_back hr hE hb)
  | head hE _ ih =>
    have h1 := ih hb
    have h2 : ExistsId g _ := reaches_src_mem h1
    exact Reaches.head (run_edge_back hr hE h2) h1

/-! ### Chains of dependencies against the invariant -/

theorem reaches_started_completed {g : GraphState} {a b : Nat}
    {rb : JobRecord} (hinv : Inv g) (hre : Reaches g a b)
    (hlb : lookup g b = some rb) (hst : StartedSt rb.state) :
    ∃ ra, lookup g a = some ra ∧ ra.state = .completed := by
  obtain ⟨hU, hP, hPC, hFC⟩ := hinv
  induction hre generalizing rb with
  | single hE =>
    rcases hE with ⟨r, hr, hj, hmem⟩
    have hbc : rb.jid ∈ r.successors := by rw [lookup_jid hlb]; exact hmem
    have hc : r.state = .completed := hPC rb (lookup_mem hlb) hst r hr hbc
    refine ⟨r, ?_, hc⟩
    rw [← hj]
    exact mem_lookup hU hr
  | head hE hre ih =>
    rcases ih hlb hst with ⟨rx, hlx, hxc⟩
    rcases hE with ⟨r, hr, hj, hmem⟩
    have hbc : rx.jid ∈ r.successors := by rw [lookup_jid hlx]; exact hmem
    have hc : r.state = .completed :=
      hPC rx (lookup_mem hlx) (Or.inr hxc) r hr hbc
    refine ⟨r, ?_, hc⟩
    rw [← hj]
    exact mem_lookup hU hr

theorem reaches_failed {g : GraphState} {a b : Nat} {ra rb : JobRecord}
    (hinv : Inv g) (hla : lookup g a = some ra) (hfa : ra.state = .failed)
    (hre : Reaches g a b) (hlb : lookup g b = some rb) :
    rb.state = .failed := by
  obtain ⟨hU, hP, hPC, hFC⟩ := hinv
  induction hre generalizing ra with
  | single hE =>
    rcases hE with ⟨r, hr, hj, hmem⟩
    have : r = ra := lookup_unique hU hla r hr hj
    subst this
    exact hFC r hr hfa rb (lookup_mem hlb)
      (by rw [lookup_jid hlb]; exact hmem)
  | head hE hre ih =>
    rcases hE with ⟨r, hr, hj, hmem⟩
    have : r = ra := lookup_unique hU hla r hr hj
    subst this
    rcases reaches_src_mem hre with ⟨rx, hrx, hjx⟩
    have hlx : lookup g rx.jid = some rx := mem_lookup hU hrx
    rw [hjx] at hlx
    have hxf : rx.state = .failed :=
      hFC r hr hfa rx hrx (by rw [hjx]; exact hmem)
    exact ih hlx hxf hlb

/-! ### Splitting a run around one event -/

theorem run_append_split {g g' : GraphState} {t1 t2 : List Event} {e : Event}
    (hr : Run g (t1 ++ e :: t2) g') :
    ∃ m1 m2, Run g t1 m1 ∧ Step m1 e m2 ∧ Run m2 t2 g' := by
  induction t1 generalizing g with
  | nil =>
    rw [List.nil_append] at hr
    cases hr with
    | cons hs hrun => exact ⟨g, _, Run.nil g, hs, hrun⟩
  | cons a t1 ih =>
    rw [List.cons_append] at hr
    cases hr with
    | cons hs hrun =>
      rcases ih hrun with ⟨m1, m2, h1, h2, h3⟩
      exact ⟨m1, m2, Run.cons hs h1, h2, h3⟩

theorem freshOk_nil (g : GraphState) (i : Nat) : FreshOk g i [] :=
  ⟨List.Pairwise.nil, fun r hr => absurd hr (List.not_mem_nil r)⟩

/-! ### The spec's retry scenario: X with two retries, successor Y -/

/-- The spec scenario's job X: two retries, one successor Y (spec §8). -/
def jobX : JobRecord := ⟨1, 0, [2], 2, .unissued⟩

/-- The spec scenario's job Y, the only successor of X (spec §8). -/
def jobY : JobRecord := ⟨2, 1, [], 1, .unissued⟩

def scenarioStart : GraphState := [jobX, jobY]

/-- X is dispatched twice; each attempt ends in an application failure. -/
def scenarioTrace : List Event :=
  [.dispatch 1, .complete 1 .failure [], .dispatch 1,
   .complete 1 .failure []]

def scenarioMid1 : GraphState := markDispatched scenarioStart 1

def scenarioMid2 : GraphState := recordCompletion scenarioMid1 1 .failure []

def scenarioMid3 : GraphState := markDispatched scenarioMid2 1

def scenarioFinal : GraphState := recordCompletion scenarioMid3 1 .failure []

theorem scenarioStep1 : Step scenarioStart (.dispatch 1) scenarioMid1 :=
  Step.dispatch scenarioStart 1 jobX (by decide) (by decide) (by decide)

theorem scenarioStep2 :
    Step scenarioMid1 (.complete 1 .failure []) scenarioMid2 :=
  Step.complete scenarioMid1 1 ⟨1, 0, [2], 2, .dispatched⟩ .failure []
    (by decide) (by decide) (freshOk_nil _ _) (fun _ => rfl)

theorem scenarioStep3 : Step scenarioMid2 (.dispatch 1) scenarioMid3 :=
  Step.dispatch scenarioMid2 1 ⟨1, 0, [2], 1, .unissued⟩
    (by decide) (by decide) (by decide)

theorem scenarioStep4 :
    Step scenarioMid3 (.complete 1 .failure []) scenarioFinal :=
  Step.complete scenarioMid3 1 ⟨1, 0, [2], 1, .dispatched⟩ .failure []
    (by decide) (by decide) (freshOk_nil _ _) (fun _ => rfl)

theorem scenarioRun : Run scenarioStart scenarioTrace scenarioFinal :=
  Run.cons scenarioStep1 (Run.cons scenarioStep2
    (Run.cons scenarioStep3 (Run.cons scenarioStep4 (Run.nil _))))

theorem step_dispatch_inv {g g' : GraphState} {i : Nat}
    (h : Step g (.dispatch i) g') :
    ∃ rec, lookup g i = some rec ∧ rec.state = .unissued ∧
      rec.predecessorsRemaining = 0 ∧ g' = markDispatched g i := by
  cases h with
  | dispatch i2 rec hl hu hp => exact ⟨rec, hl, hu, hp, rfl⟩

instance decStartedSt : DecidablePred StartedSt := fun s =>
  decidable_of_iff (s = .dispatched ∨ s = .completed) Iff.rfl

instance decUniqueIds (g : GraphState) : Decidable (UniqueIds g) :=
  decidable_of_iff ((g.map (fun r : JobRecord => r.jid)).Nodup) Iff.rfl

instance decPredCount (g : GraphState) : Decidable (PredCount g) :=
  decidable_of_iff
    (∀ r ∈ g, incompleteParents g r.jid ≤ r.predecessorsRemaining) Iff.rfl

instance decParentsCompleted (g : GraphState) :
    Decidable (ParentsCompleted g) :=
  decidable_of_iff (∀ r ∈ g, StartedSt r.state → ∀ p ∈ g,
    r.jid ∈ p.successors → p.state = .completed) Iff.rfl

instance decFailedClosed (g : GraphState) : Decidable (FailedClosed g) :=
  decidable_of_iff (∀ p ∈ g, p.state = .failed → ∀ q ∈ g,
    q.jid ∈ p.successors → q.state = .failed) Iff.rfl

instance decInv (g : GraphState) : Decidable (Inv g) :=
  decidable_of_iff
    (UniqueIds g ∧ PredCount g ∧ ParentsCompleted g ∧ FailedClosed g) Iff.rfl

/-! ### Claim theorems over the job-graph model -/

/-- C1: in every run from a well-formed graph, if job A's record is
permanently Failed and B transitively depends on A (a chain of successor
links reaches B), then B's record is Failed and no dispatch of B occurs in
the run's trace. -/
theorem c1_failure_propagation {s0 s : GraphState} {t : List Event}
    {A B : Nat} {rA rB : JobRecord} (hinv : Inv s0) (hrun : Run s0 t s)
    (hlA : lookup s A = some rA) (hfA : rA.state = .failed)
    (hdep : Reaches s A B) (hlB : lookup s B = some rB) :
    rB.state = .failed ∧ Event.dispatch B ∉ t := by
  have hinvS : Inv s := inv_run hinv hrun
  refine ⟨reaches_failed hinvS hlA hfA hdep hlB, ?_⟩
  intro hmem
  rcases List.append_of_mem hmem with ⟨t1, t2, ht⟩
  subst ht
  rcases run_append_split hrun with ⟨m1, m2, hr1, hstep, hr2⟩
  have hinv1 : Inv m1 := inv_run hinv hr1
  have hinv2 : Inv m2 := inv_step hinv1 hstep
  rcases step_dispatch_inv hstep with ⟨recB, hlrB, huB, hpB, rfl⟩
  have hbeq : (recB.jid == B) = true := by simp [lookup_jid hlrB]
  have hlB2 : lookup (markDispatched m1 B) B =
      some { recB with state := .dispatched } := by
    rw [lookup_markDispatched, hlrB, Option.map_some', if_pos hbeq]
  have hexB : ExistsId (markDispatched m1 B) B :=
    ⟨_, lookup_mem hlB2, lookup_jid hlB2⟩
  have hdep2 : Reaches (markDispatched m1 B) A B :=
    run_reaches_back hr2 hdep hexB
  rcases reaches_started_completed hinv2 hdep2 hlB2 (Or.inl rfl) with
    ⟨rA2, hlA2, hcA2⟩
  rcases run_completed_stays hinv2 hr2 hlA2 hcA2 with ⟨rA', hlA', hcA'⟩
  rw [hlA] at hlA'
  cases Option.some.inj hlA'
  rw [hcA'] at hfA
  exact JobState.noConfusion hfA

/-- A closed instance of C1: on the two-failure scenario run, Y (job 2),
which depends on the permanently failed X (job 1), ends Failed and is
never dispatched. -/
theorem c1_failure_propagation_witness :
    (⟨2, 1, [], 1, .failed⟩ : JobRecord).state = .failed ∧
      Event.dispatch 2 ∉ scenarioTrace :=
  @c1_failure_propagation scenarioStart scenarioFinal scenarioTrace 1 2
    ⟨1, 0, [2], 0, .failed⟩ ⟨2, 1, [], 1, .failed⟩ (by decide) scenarioRun
    (by decide) (by decide)
    (Reaches.single (show Edge scenarioFinal 1 2 from
      ⟨⟨1, 0, [2], 0, .failed⟩, by decide, rfl, by decide⟩))
    (by decide)

/-- C2: between a dispatch of id `i` and its matching completion, no other
dispatch returns `i`: a trace holding two dispatches of `i` holds a
completion event for `i` between them. -/
theorem c2_at_most_one_dispatch {s0 s : GraphState}
    {t1 t2 t3 : List Event} {i : Nat}
    (hr : Run s0 (t1 ++ .dispatch i :: (t2 ++ .dispatch i :: t3)) s) :
    ∃ e ∈ t2, e.isCompletionOf i = true := by
  by_contra hnc
  push_neg at hnc
  have hnc' : ∀ e ∈ t2, e.isCompletionOf i = false := by
    intro e he
    have := hnc e he
    simpa using this
  rcases run_append_split hr with ⟨m1, m2, h1, hstep1, hrest⟩
  rcases run_append_split hrest with ⟨m3, m4, h2, hstep2, h3⟩
  rcases step_dispatch_inv hstep1 with ⟨rec, hl, hu, hp, rfl⟩
  have hbeq : (rec.jid == i) = true := by simp [lookup_jid hl]
  have hl2 : lookup (markDispatched m1 i) i =
      some { rec with state := .dispatched } := by
    rw [lookup_markDispatched, hl, Option.map_some', if_pos hbeq]
  rcases run_state_stays h2 hl2 (Or.inl rfl) hnc' with ⟨r', hl', hst'⟩
  rcases step_dispatch_inv hstep2 with ⟨rec2, hl2', hu2, hp2, rfl⟩
  rw [hl'] at hl2'
  cases Option.some.inj hl2'
  rw [hu2] at hst'
  rcases hst' with h | h <;> exact JobState.noConfusion h

/-- A closed instance of C2: in the trace dispatch 1, fail 1, dispatch 1
the events between the two dispatches hold a completion of job 1. -/
theorem c2_at_most_one_dispatch_witness :
    ∃ e ∈ [Event.complete 1 .failure []], e.isCompletionOf 1 = true :=
  @c2_at_most_one_dispatch scenarioStart scenarioMid3 []
    [Event.complete 1 .failure []] [] 1
    (Run.cons scenarioStep1 (Run.cons scenarioStep2
      (Run.cons scenarioStep3 (Run.nil _))))

/-- C5: `recordCompletion` is idempotent — applying it a second time with
the same id, outcome and successor records leaves the job store
unchanged: a retried delivery of a completion event is a no-op. -/
theorem c5_recordCompletion_idempotent (g : GraphState) (i : Nat)
    (o : Outcome) (newRecs : List JobRecord) :
    recordCompletion (recordCompletion g i o newRecs) i o newRecs =
      recordCompletion g i o newRecs := by
  cases hl : lookup g i with
  | none =>
    have h1 : recordCompletion g i o newRecs = g := by
      simp [recordCompletion, hl]
    rw [h1, h1]
  | some rec =>
    by_cases hd : rec.state = .dispatched
    · cases o with
      | success =>
        rw [recordCompletion_success_eq hl hd]
        have hl' : lookup (applySuccess g rec newRecs) i =
            some { rec with state := .completed } := by
          have h2 := @lookup_applySuccess g rec newRecs i rec hl
          rw [if_pos (by simp)] at h2
          exact h2
        simp [recordCompletion, hl']
      | failure =>
        rw [recordCompletion_failure_eq hl hd]
        rcases lookup_applyFailure_self hl with ⟨rec', hl', hretr, hif, hifn⟩
        have hnd : rec'.state ≠ .dispatched := by
          by_cases hret : rec.retriesRemaining - 1 = 0
          · rw [hif hret]; simp
          · rw [hifn hret]; simp
        simp [recordCompletion, hl', hnd]
    · have h1 : recordCompletion g i o newRecs = g := by
        simp [recordCompletion, hl, hd]
      rw [h1, h1]

/-- C6: recording an execution failure decrements `retriesRemaining` and
permanently fails the record at zero; in the concrete scenario, X
(retries 2) suffers two failures, ends Failed with no retries left, its
successor Y ends Failed without ever being dispatched, and a third
dispatch of X is impossible. -/
theorem c6_retry_budget {g : GraphState} {i : Nat} {rec : JobRecord}
    (hl : lookup g i = some rec) (hd : rec.state = .dispatched) :
    (∃ rec', lookup (recordCompletion g i .failure []) i = some rec' ∧
      rec'.retriesRemaining = rec.retriesRemaining - 1 ∧
      (rec.retriesRemaining - 1 = 0 → rec'.state = .failed) ∧
      (rec.retriesRemaining - 1 ≠ 0 → rec'.state = .unissued)) ∧
    (Run scenarioStart scenarioTrace scenarioFinal ∧
      lookup scenarioFinal 1 = some ⟨1, 0, [2], 0, .failed⟩ ∧
      lookup scenarioFinal 2 = some ⟨2, 1, [], 1, .failed⟩ ∧
      Event.dispatch 2 ∉ scenarioTrace ∧
      ¬ ∃ s', Step scenarioFinal (.dispatch 1) s') := by
  constructor
  · rw [recordCompletion_failure_eq hl hd]
    exact lookup_applyFailure_self hl
  · refine ⟨scenarioRun, by decide, by decide, by decide, ?_⟩
    rintro ⟨s', hstep⟩
    rcases step_dispatch_inv hstep with ⟨rec1, hl1, hu1, hp1, rfl⟩
    have hfin : lookup scenarioFinal 1 = some ⟨1, 0, [2], 0, .failed⟩ := by
      decide
    rw [hfin] at hl1
    cases Option.some.inj hl1
    exact absurd hu1 (by decide)

/-- A closed instance of C6: after the first failure of dispatched X the
retry budget drops from 2 to 1 and X returns to Unissued. -/
theorem c6_retry_budget_witness :
    ∃ rec', lookup (recordCompletion scenarioMid1 1 .failure []) 1 =
        some rec' ∧
      rec'.retriesRemaining =
        (⟨1, 0, [2], 2, .dispatched⟩ : JobRecord).retriesRemaining - 1 ∧
      ((⟨1, 0, [2], 2, .dispatched⟩ : JobRecord).retriesRemaining - 1 = 0 →
        rec'.state = .failed) ∧
      ((⟨1, 0, [2], 2, .dispatched⟩ : JobRecord).retriesRemaining - 1 ≠ 0 →
        rec'.state = .unissued) :=
  (c6_retry_budget (g := scenarioMid1) (i := 1) (by decide) (by decide)).1

/-! ### The autoscaler model (spec §4.3)

The autoscaler's source is not among the repository files (only the
provisioner test `PremptableDeficitCompensationTest` exercises it), so the
control cycle is modelled from the spec. -/

/-- Modelled from the spec: `desiredNodeCount` per class is
`ceil(queuedResourceDemand / perNodeCapacity)` clamped to the configured
`[min, max]` bounds (spec §4.3 step 2). -/
def desiredNodeCount (demand capacity minNodes maxNodes : Nat) : Nat :=
  max minNodes (min maxNodes ((demand + capacity - 1) / capacity))

/-- The magnitude of the difference between desired and current count. -/
def nodeDelta (a b : Nat) : Nat := max a b - min a b

/-- Modelled from the spec: hysteresis — act only when the delta between
desired and current exceeds the damping threshold, or when the timeout
since the last change has elapsed (spec §4.3 step 3). -/
def applyHysteresis (current desired threshold : Nat)
    (timeoutElapsed : Bool) : Nat :=
  if threshold < nodeDelta desired current ∨ timeoutElapsed = true then
    desired
  else current

/-- Modelled from the spec: one autoscaler control cycle for one node
class — estimate the desired count from queued demand, then damp
(spec §4.3 steps 1-3). -/
def autoscaleCycle (demand capacity minNodes maxNodes current threshold :
    Nat) (timeoutElapsed : Bool) : Nat :=
  applyHysteresis current (desiredNodeCount demand capacity minNodes
    maxNodes) threshold timeoutElapsed

/-- The scale requests one cycle issues, preemptable and non-preemptable. -/
structure ScaleRequest where
  preemptableNodes : Nat
  nonPreemptableNodes : Nat
deriving DecidableEq

/-- Modelled from the spec: deficit compensation (spec §4.3 step 5) — when
the provisioner cannot fulfil the preemptable request and the jobs are
preemptable-only-if-available (not preemptable-required), the unfulfilled
remainder is requested as non-preemptable capacity in the same cycle. -/
def preemptableCycle (preemptableDemand provisionerCapacity : Nat)
    (preemptableRequired : Bool) : ScaleRequest :=
  let granted := min preemptableDemand provisionerCapacity
  let deficit := preemptableDemand - granted
  { preemptableNodes := preemptableDemand,
    nonPreemptableNodes := if preemptableRequired then 0 else deficit }

/-- C3: when a preemptable request cannot be fulfilled and the jobs are
only-if-available, the cycle requests non-preemptable capacity equal to
the unfulfilled remainder (granted + compensated = demand), a
preemptable-required class gets no compensation, and the spec scenario —
a rejected request for 2 preemptable nodes — yields a request for 2
non-preemptable nodes. -/
theorem c3_deficit_compensation (demand capacity : Nat)
    (hshort : capacity < demand) :
    (preemptableCycle demand capacity false).nonPreemptableNodes +
        min demand capacity = demand ∧
    0 < (preemptableCycle demand capacity false).nonPreemptableNodes ∧
    (preemptableCycle demand capacity true).nonPreemptableNodes = 0 ∧
    (preemptableCycle 2 0 false).nonPreemptableNodes = 2 := by
  refine ⟨?_, ?_, rfl, rfl⟩
  · simp [preemptableCycle]
  · simp [preemptableCycle]
    omega

/-- A closed instance of C3: two preemptable nodes demanded, none
grantable, jobs only-if-available — 2 non-preemptable nodes requested. -/
theorem c3_deficit_compensation_witness :
    (preemptableCycle 2 0 false).nonPreemptableNodes + min 2 0 = 2 ∧
    0 < (preemptableCycle 2 0 false).nonPreemptableNodes ∧
    (preemptableCycle 2 0 true).nonPreemptableNodes = 0 ∧
    (preemptableCycle 2 0 false).nonPreemptableNodes = 2 :=
  c3_deficit_compensation 2 0 (by decide)

/-- C4: the desired node count is the ceiling of demand over per-node
capacity clamped to `[min, max]` (characterised by `demand ≤ capacity * d`
and `capacity * (d - 1) < demand`), a delta within the damping threshold
causes no change, and in the spec scenario capacity 4 with demand 10 gives
3 nodes while a drop to 9 cores holds the count at 3. -/
theorem c4_desired_node_count (demand capacity minNodes maxNodes current
    threshold : Nat) (hcap : 0 < capacity) (hmm : minNodes ≤ maxNodes) :
    (minNodes ≤ desiredNodeCount demand capacity minNodes maxNodes ∧
      desiredNodeCount demand capacity minNodes maxNodes ≤ maxNodes) ∧
    (minNodes ≤ (demand + capacity - 1) / capacity →
      (demand + capacity - 1) / capacity ≤ maxNodes →
      desiredNodeCount demand capacity minNodes maxNodes =
          (demand + capacity - 1) / capacity ∧
        demand ≤ capacity * ((demand + capacity - 1) / capacity) ∧
        (0 < (demand + capacity - 1) / capacity →
          capacity * ((demand + capacity - 1) / capacity - 1) < demand)) ∧
    (nodeDelta (desiredNodeCount demand capacity minNodes maxNodes)
        current ≤ threshold →
      autoscaleCycle demand capacity minNodes maxNodes current threshold
        false = current) ∧
    (desiredNodeCount 10 4 0 100 = 3 ∧
      ∀ th : Nat, autoscaleCycle 9 4 0 100 3 th false = 3) := by
  refine ⟨⟨Nat.le_max_left _ _, ?_⟩, ?_, ?_, rfl, ?_⟩
  · exact max_le hmm (min_le_left _ _)
  · intro h1 h2
    set d := (demand + capacity - 1) / capacity with hd
    refine ⟨?_, ?_, ?_⟩
    · rw [desiredNodeCount, ← hd, min_eq_right h2, max_eq_right h1]
    · have hdm := Nat.div_add_mod (demand + capacity - 1) capacity
      have hmod := Nat.mod_lt (demand + capacity - 1) hcap
      rw [← hd] at hdm
      omega
    · intro hdpos
      have hdm := Nat.div_add_mod (demand + capacity - 1) capacity
      have hmod := Nat.mod_lt (demand + capacity - 1) hcap
      rw [← hd] at hdm
      have hsub : capacity * (d - 1) + capacity = capacity * d := by
        have h0 : d - 1 + 1 = d := Nat.succ_pred_eq_of_pos hdpos
        calc capacity * (d - 1) + capacity
            = capacity * (d - 1 + 1) := (Nat.mul_succ _ _).symm
          _ = capacity * d := by rw [h0]
      omega
  · intro hsmall
    rw [autoscaleCycle, applyHysteresis, if_neg]
    rw [not_or]
    exact ⟨not_lt.mpr hsmall, by simp⟩
  · intro th
    have hdes : desiredNodeCount 9 4 0 100 = 3 := rfl
    rw [autoscaleCycle, hdes, applyHysteresis, if_neg]
    rw [not_or]
    constructor
    · show ¬ th < nodeDelta 3 3
      simp [nodeDelta]
    · simp

/-- A closed instance of C4: the spec scenario at capacity 4 — demand 10
gives 3 desired nodes; the drop to demand 9 leaves the count at 3. -/
theorem c4_desired_node_count_witness :
    desiredNodeCount 10 4 0 100 = 3 ∧
      ∀ th : Nat, autoscaleCycle 9 4 0 100 3 th false = 3 :=
  (c4_desired_node_count 10 4 0 100 3 1 (by decide) (by decide)).2.2.2

/-! ### jobTreeStats.py: string padding and memory formatting

Python strings are embedded as `List Char`; a format width (`field`) is an
optional integer as in the source. -/

/-- `" " * n` — the space padding `padStr` builds. -/
def spacesChars (n : Nat) : List Char := List.replicate n ' '

/-- `padStr` from `jobTreeStats.py` (lines 166-175): pad the beginning of
a string with spaces up to width `field`, when a width is given. -/
def padStr (s : List Char) (field : Option Int) : List Char :=
  match field with
  | none => s
  | some f =>
    if (s.length : Int) ≥ f then s
    else spacesChars (f - s.length).toNat ++ s

/-- C8: `padStr s field` has length `max (len s) field`, keeps `s` as a
suffix, returns `s` unchanged when `len s ≥ field` or the field is absent,
and is idempotent. -/
theorem c8_padStr (s : List Char) (f : Int) :
    ((padStr s (some f)).length : Int) = max (s.length : Int) f ∧
    (∃ p, padStr s (some f) = p ++ s) ∧
    ((s.length : Int) ≥ f → padStr s (some f) = s) ∧
    padStr s none = s ∧
    padStr (padStr s (some f)) (some f) = padStr s (some f) := by
  by_cases h : (s.length : Int) ≥ f
  · have he : padStr s (some f) = s := by rw [padStr, if_pos h]
    exact ⟨by rw [he, max_eq_left h], ⟨[], by rw [he, List.nil_append]⟩,
      fun _ => he, rfl, by rw [he, he]⟩
  · have hlt : (s.length : Int) < f := lt_of_not_ge h
    have he : padStr s (some f) =
        spacesChars (f - s.length).toNat ++ s := by
      rw [padStr, if_neg h]
    have hlen : ((padStr s (some f)).length : Int) = f := by
      rw [he, List.length_append, spacesChars, List.length_replicate]
      have : (((f - (s.length : Int)).toNat : Int)) = f - s.length :=
        Int.toNat_of_nonneg (by omega)
      push_cast
      omega
    refine ⟨by rw [hlen, max_eq_right (le_of_lt hlt)],
      ⟨spacesChars (f - s.length).toNat, he⟩,
      fun hge => absurd hge h, rfl, ?_⟩
    have hge2 : ((padStr s (some f)).length : Int) ≥ f := by rw [hlen]
    rw [padStr, if_pos hge2]

/-- The options record `reportMemory` consults (`--pretty`). -/
structure StatsOptions where
  pretty : Bool

/-- Digits of a rational for display; stands in for Python's `%g`
formatting, whose exact digit string no claim depends on. -/
def numChars (q : ℚ) : List Char := (toString q).toList

/-- `prettyMemory` from `jobTreeStats.py` (lines 177-192): `k` kilobytes
(bytes when `isBytes`, divided by 1024 first) rendered with a K/M/G/T/P
suffix; past the petabyte branch the chain of `if`s falls off the end and
the Python function returns `None`. -/
def prettyMemory (k : ℚ) (field : Option Int) (isBytes : Bool) :
    Option (List Char) :=
  let k := if isBytes then k / 1024 else k
  if k < 1024 then some (padStr (numChars k ++ ['K']) field)
  else if k < 1024 * 1024 then
    some (padStr (numChars (k / 1024) ++ ['M']) field)
  else if k < 1024 * 1024 * 1024 then
    some (padStr (numChars (k / 1024 / 1024) ++ ['G']) field)
  else if k < 1024 * 1024 * 1024 * 1024 then
    some (padStr (numChars (k / 1024 / 1024 / 1024) ++ ['T']) field)
  else if k < 1024 * 1024 * 1024 * 1024 * 1024 then
    some (padStr (numChars (k / 1024 / 1024 / 1024 / 1024) ++ ['P']) field)
  else none

/-- `reportMemory` from `jobTreeStats.py` (lines 248-259): pretty mode
defers to `prettyMemory`; raw mode always renders `%*gK`. -/
def reportMemory (k : ℚ) (options : StatsOptions) (field : Option Int)
    (isBytes : Bool) : Option (List Char) :=
  if options.pretty then prettyMemory k field isBytes
  else
    let k2 := if isBytes then k / 1024 else k
    some (padStr (numChars k2 ++ ['K']) field)

/-- C9: `prettyMemory` returns `None` exactly when its input (after the
optional byte-to-kilobyte division) reaches `1024^5` kilobytes, and
`reportMemory` in pretty mode is `prettyMemory`, so it too yields `None`
there. -/
theorem c9_prettyMemory_bound (k : ℚ) (field : Option Int)
    (isBytes : Bool) :
    (prettyMemory k field isBytes = none ↔
      (1024 : ℚ) ^ 5 ≤ (if isBytes then k / 1024 else k)) ∧
    reportMemory k ⟨true⟩ field isBytes = prettyMemory k field isBytes := by
  constructor
  · rw [prettyMemory]
    have hpow : ((1024 : ℚ)) ^ 5 = 1024 * 1024 * 1024 * 1024 * 1024 := by
      norm_num
    set q := if isBytes then k / 1024 else k with hq
    split_ifs with h1 h2 h3 h4 h5
    · constructor
      · intro h; exact h.elim
      · intro hge; exfalso; rw [hpow] at hge; linarith
    · constructor
      · intro h; exact h.elim
      · intro hge; exfalso; rw [hpow] at hge; linarith
    · constructor
      · intro h; exact h.elim
      · intro hge; exfalso; rw [hpow] at hge; linarith
    · constructor
      · intro h; exact h.elim
      · intro hge; exfalso; rw [hpow] at hge; linarith
    · constructor
      · intro h; exact h.elim
      · intro hge; exfalso; rw [hpow] at hge; linarith
    · constructor
      · intro _; rw [hpow]; linarith [le_of_not_lt h5]
      · intro _; rfl
  · rfl

/-! ### jobTreeStats.py: XML attribute extraction (`get`, `JTTag.__get`)

An ElementTree element is a tag with attributes and children; attribute
values are raw strings.  Python's `float(value)` either yields a value or
raises `ValueError`; it is embedded as `pyFloat`, returning
`Except Unit ℚ` over sign, integer digits and an optional fraction (the
decimal core of the accepted syntax). -/

/-- An ElementTree element of the raw stats/config XML. -/
structure XTree where
  tag : String
  attrib : List (String × String)
  children : List XTree

/-- A Python float as `jobTreeStats` consumes it: NaN or a rational. -/
inductive PFloat
  | nan
  | num (q : ℚ)
deriving DecidableEq

def parseDigitsAux : List Char → Nat → Option Nat
  | [], acc => some acc
  | c :: cs, acc =>
    if c.isDigit then parseDigitsAux cs (acc * 10 + (c.toNat - 48))
    else none

/-- Python's `float(...)` on a decimal literal: optional sign, integer
digits, optional point and fraction digits; anything else raises
`ValueError` (the `Except.error` case). -/
def pyFloat (cs : List Char) : Except Unit ℚ :=
  let sr : ℚ × List Char :=
    match cs with
    | '-' :: r => (-1, r)
    | '+' :: r => (1, r)
    | r => (1, r)
  let sign := sr.1
  let rest := sr.2
  let intPart := rest.takeWhile (fun c => c != '.')
  let dotRest := rest.dropWhile (fun c => c != '.')
  match dotRest with
  | [] =>
    match rest with
    | [] => .error ()
    | _ =>
      match parseDigitsAux rest 0 with
      | some n => .ok (sign * n)
      | none => .error ()
  | _ :: fracPart =>
    if intPart.isEmpty && fracPart.isEmpty then .error ()
    else
      match parseDigitsAux intPart 0, parseDigitsAux fracPart 0 with
      | some n, some m =>
        .ok (sign * ((n : ℚ) + (m : ℚ) / 10 ^ fracPart.length))
      | _, _ => .error ()

/-- `name in tree.attrib` / `tree.attrib[name]` on an element. -/
def getAttr (attrib : List (String × String)) (name : String) :
    Option String :=
  (attrib.find? (fun pr => pr.1 == name)).map (fun pr => pr.2)

/-- `get` from `jobTreeStats.py` (lines 377-388): a missing attribute
yields NaN; `float(value)` is tried and a `ValueError` is caught and
turned into NaN. -/
def get (tree : XTree) (name : String) : Except Unit PFloat :=
  match getAttr tree.attrib name with
  | none => .ok .nan
  | some value =>
    match pyFloat value.toList with
    | .ok q => .ok (.num q)
    | .error _ => .ok .nan

/-- `JTTag.__get` from `jobTreeStats.py` (lines 60-69) — the same logic
duplicated inside the `JTTag` convenience class. -/
def jttagGet (tag : XTree) (name : String) : Except Unit PFloat :=
  match getAttr tag.attrib name with
  | none => .ok .nan
  | some value =>
    match pyFloat value.toList with
    | .ok q => .ok (.num q)
    | .error _ => .ok .nan

/-- C10: `get` and `JTTag.__get` never raise — they always return a value
— and agree; the value is the attribute parsed as a float when it parses,
and NaN both when the attribute is absent and when parsing raises
`ValueError`. -/
theorem c10_get_total_and_nan (tree : XTree) (name : String) :
    (∃ v, get tree name = .ok v) ∧
    jttagGet tree name = get tree name ∧
    (getAttr tree.attrib name = none → get tree name = .ok .nan) ∧
    ∀ s, getAttr tree.attrib name = some s →
      (∀ q, pyFloat s.toList = .ok q → get tree name = .ok (.num q)) ∧
      (∀ e, pyFloat s.toList = .error e → get tree name = .ok .nan) := by
  refine ⟨?_, ?_, ?_, ?_⟩
  · cases hA : getAttr tree.attrib name with
    | none => exact ⟨.nan, by simp [get, hA]⟩
    | some value =>
      cases hP : pyFloat value.toList with
      | ok q =>
        rw [String.toList] at hP
        exact ⟨.num q, by simp [get, hA, hP]⟩
      | error e =>
        rw [String.toList] at hP
        exact ⟨.nan, by simp [get, hA, hP]⟩
  · rw [get, jttagGet]
  · intro hA
    simp [get, hA]
  · intro s hA
    constructor
    · intro q hP
      rw [String.toList] at hP
      simp [get, hA, hP]
    · intro e hP
      rw [String.toList] at hP
      simp [get, hA, hP]

/-! ### jobTreeStats.py: the collated run report (`processData`)

`processData` collates the per-slave/per-target statistics into one XML
element tree (the run report the tool prints).  The output tree is
embedded as `OutTree`: attribute values carry the computed number or the
copied string (Python's `str(...)` rendering is pure formatting and is
left as the tagged value). -/

/-- An attribute value of the collated report. -/
inductive AttrVal
  | str (s : String)
  | num (q : ℚ)
  | cnt (n : Nat)
deriving DecidableEq

/-- An element of the collated report tree. -/
structure OutTree where
  tag : String
  attrib : List (String × AttrVal)
  children : List OutTree

/-- The time/clock/memory triple `buildElement` reads off one item. -/
structure ItemStats where
  time : ℚ
  clock : ℚ
  memory : ℚ

/-- One `target` element of the input stats, with its `class` attribute. -/
structure TargetStats where
  klass : String
  stats : ItemStats

/-- One `slave` element of the input stats with its nested targets. -/
structure SlaveStats where
  stats : ItemStats
  targets : List TargetStats

/-- The config attributes `processData` copies
(`config.attrib[...]`, lines 596-602). -/
structure StatsConfig where
  batchSystem : String
  jobTime : String
  defaultMemory : String
  defaultCpu : String
  maxCpus : String
  maxThreads : String

/-- `__round` from `buildElement` (lines 507-511): clamp negatives to 0. -/
def roundNonneg (q : ℚ) : ℚ := if q < 0 then 0 else q

/-- `list.sort()` on the gathered values. -/
def sortedQ (l : List ℚ) : List ℚ := l.mergeSort (fun a b => a ≤ b)

/-- The `if len(itemTimes) == 0: append(0)` guard (lines 524-528). -/
def orZero (l : List ℚ) : List ℚ := if l.isEmpty then [0] else l

/-- `itemTimes[len(itemTimes)/2]` — the source's median. -/
def medianOf (l : List ℚ) : ℚ := l.getD (l.length / 2) 0

/-- `buildElement` from `jobTreeStats.py` (lines 504-552): the attribute
list of the element built over `items`. -/
def buildElementAttrs (items : List ItemStats) : List (String × AttrVal) :=
  let times := orZero (sortedQ (items.map (fun i => roundNonneg i.time)))
  let clocks := orZero (sortedQ (items.map (fun i => roundNonneg i.clock)))
  let waits := orZero (sortedQ (items.map (fun i =>
    roundNonneg (roundNonneg i.time - roundNonneg i.clock))))
  let mems := orZero (sortedQ (items.map (fun i => roundNonneg i.memory)))
  [("total_number", .cnt items.length),
   ("total_time", .num times.sum),
   ("median_time", .num (medianOf times)),
   ("average_time", .num (times.sum / times.length)),
   ("min_time", .num (times.headD 0)),
   ("max_time", .num (times.getLastD 0)),
   ("total_clock", .num clocks.sum),
   ("median_clock", .num (medianOf clocks)),
   ("average_clock", .num (clocks.sum / clocks.length)),
   ("min_clock", .num (clocks.headD 0)),
   ("max_clock", .num (clocks.getLastD 0)),
   ("total_wait", .num waits.sum),
   ("median_wait", .num (medianOf waits)),
   ("average_wait", .num (waits.sum / waits.length)),
   ("min_wait", .num (waits.headD 0)),
   ("max_wait", .num (waits.getLastD 0)),
   ("total_memory", .num mems.sum),
   ("median_memory", .num (medianOf mems)),
   ("average_memory", .num (mems.sum / mems.length)),
   ("min_memory", .num (mems.headD 0)),
   ("max_memory", .num (mems.getLastD 0))]

/-- `createSummary` from `jobTreeStats.py` (lines 554-568): the four
`*_number_per_slave` attributes.  Faithful to the source's `fn4`, whose
closure reads the `for` loop's leftover `slave` variable: every count is
the last slave's target count. -/
def createSummaryAttrs (slaves : List SlaveStats) : List (String × AttrVal) :=
  let counts : List Nat :=
    match slaves.getLast? with
    | none => []
    | some last => slaves.map (fun _ => last.targets.length)
  let counts := (if counts.isEmpty then [0] else counts).mergeSort
    (fun a b => a ≤ b)
  [("median_number_per_slave", .cnt (counts.getD (counts.length / 2) 0)),
   ("average_number_per_slave", .num ((counts.sum : ℚ) / counts.length)),
   ("min_number_per_slave", .cnt (counts.headD 0)),
   ("max_number_per_slave", .cnt (counts.getLastD 0))]

/-- One element of `target_types`: the targets of one class collated. -/
def targetTypeElem (targets : List TargetStats) (n : String) : OutTree :=
  ⟨n, buildElementAttrs ((targets.filter
    (fun t => t.klass == n)).map (fun t => t.stats)), []⟩

/-- `processData` from `jobTreeStats.py` (lines 586-625): the collated
stats element.  `totalTime` is `stats.find("total_time")`; when absent the
source's hack substitutes `0.0`/`0.0`. -/
def processData (config : StatsConfig) (totalTime : Option (String × String))
    (slaves : List SlaveStats) : OutTree :=
  let tt := totalTime.getD ("0.0", "0.0")
  let targets := slaves.flatMap (fun sl => sl.targets)
  let names := (targets.map (fun t => t.klass)).eraseDups
  ⟨"collated_stats",
   [("total_run_time", .str tt.1), ("total_clock", .str tt.2),
    ("batch_system", .str config.batchSystem),
    ("job_time", .str config.jobTime),
    ("default_memory", .str config.defaultMemory),
    ("default_cpu", .str config.defaultCpu),
    ("max_cpus", .str config.maxCpus),
    ("max_threads", .str config.maxThreads)],
   [⟨"slave", buildElementAttrs (slaves.map (fun sl => sl.stats)), []⟩,
    ⟨"target", buildElementAttrs (targets.map (fun t => t.stats)) ++
      createSummaryAttrs slaves, []⟩,
    ⟨"target_types", [], names.map (targetTypeElem targets)⟩]⟩

/-- The attribute keys of one element. -/
def topKeys (t : OutTree) : List String := t.attrib.map (fun pr => pr.1)

/-- All attribute keys of the collated report, which nests two levels
below the root (root → slave/target/target_types → per-class elements). -/
def allKeys (t : OutTree) : List String :=
  topKeys t ++ (t.children.map (fun c =>
    topKeys c ++ (c.children.map topKeys).flatten)).flatten

def isPrefChars : List Char → List Char → Bool
  | [], _ => true
  | _ :: _, [] => false
  | a :: as, b :: bs => a == b && isPrefChars as bs

def hasSubChars : List Char → List Char → Bool
  | [], pat => pat.isEmpty
  | t :: ts, pat => isPrefChars pat (t :: ts) || hasSubChars ts pat

def hasSubStr (s pat : String) : Bool := hasSubChars s.toList pat.toList

/-- A key that would carry failure information: one mentioning `fail` or
`cause` in any naming convention. -/
def reportBadKey (k : String) : Bool :=
  hasSubStr k "fail" || hasSubStr k "cause"

/-- Whether any attribute key of the report carries failure information. -/
def mentionsFailure (t : OutTree) : Bool := (allKeys t).any reportBadKey

/-- A concrete config: the attributes a jobTree config carries. -/
def sampleConfig : StatsConfig :=
  ⟨"singleMachine", "30", "2147483648", "1", "4", "4"⟩

/-- A concrete stats input: one slave that ran one target. -/
def sampleSlaves : List SlaveStats :=
  [⟨⟨10, 8, 100⟩, [⟨"TargetA", ⟨5, 4, 50⟩⟩]⟩]

/-- The collated report for the concrete input. -/
def sampleReport : OutTree :=
  processData sampleConfig (some ("12.5", "11.0")) sampleSlaves

theorem buildElementAttrs_keys (items : List ItemStats) :
    (buildElementAttrs items).map (fun pr => pr.1) =
      ["total_number", "total_time", "median_time", "average_time",
       "min_time", "max_time", "total_clock", "median_clock",
       "average_clock", "min_clock", "max_clock", "total_wait",
       "median_wait", "average_wait", "min_wait", "max_wait",
       "total_memory", "median_memory", "average_memory", "min_memory",
       "max_memory"] := rfl

theorem createSummaryAttrs_keys (slaves : List SlaveStats) :
    (createSummaryAttrs slaves).map (fun pr => pr.1) =
      ["median_number_per_slave", "average_number_per_slave",
       "min_number_per_slave", "max_number_per_slave"] := rfl

theorem targetType_keys_clean (names : List String)
    (targets : List TargetStats) :
    ((names.map (targetTypeElem targets)).map topKeys).flatten.any
      reportBadKey = false := by
  induction names with
  | nil => rfl
  | cons n ns ih =>
    rw [List.map_cons, List.map_cons, List.flatten_cons, List.any_append]
    have h1 : (topKeys (targetTypeElem targets n)).any reportBadKey =
        false := by
      show ((buildElementAttrs ((targets.filter
        (fun t => t.klass == n)).map (fun t => t.stats))).map
          (fun pr => pr.1)).any reportBadKey = false
      rw [buildElementAttrs_keys]
      decide
    rw [h1, ih]
    rfl

/-- C7 counterexample: on a concrete config and stats input, no attribute
key anywhere in the collated report mentions failures or causes — the
report carries no failed job ids, so the claimed
{succeededCount, failedJobIds with causes, ...} content is absent. -/
theorem c7_report_no_failures_counterexample :
    mentionsFailure sampleReport = false ∧
    "total_run_time" ∈ allKeys sampleReport ∧
    "total_memory" ∈ allKeys sampleReport := by
  refine ⟨by decide, by decide, by decide⟩

/-- C7 (amended): for every config and stats input, the collated report
contains the total run time (wall time), total clock, job count and
aggregated memory usage, but no attribute key carries failed job ids or
failure causes. -/
theorem c7_report_contents (config : StatsConfig)
    (totalTime : Option (String × String)) (slaves : List SlaveStats) :
    "total_run_time" ∈ allKeys (processData config totalTime slaves) ∧
    "total_clock" ∈ allKeys (processData config totalTime slaves) ∧
    "total_number" ∈ allKeys (processData config totalTime slaves) ∧
    "total_memory" ∈ allKeys (processData config totalTime slaves) ∧
    mentionsFailure (processData config totalTime slaves) = false := by
  refine ⟨?_, ?_, ?_, ?_, ?_⟩
  · simp [processData, allKeys, topKeys]
  · simp [processData, allKeys, topKeys]
  · simp [processData, allKeys, topKeys, buildElementAttrs_keys]
  · simp [processData, allKeys, topKeys, buildElementAttrs_keys]
  · simp only [mentionsFailure, allKeys, processData, topKeys,
      List.map_cons, List.map_nil, List.flatten_cons, List.flatten_nil,
      List.any_append, List.map_append, buildElementAttrs_keys,
      createSummaryAttrs_keys, List.append_nil, List.nil_append,
      Bool.or_eq_false_iff]
    refine ⟨by decide, by decide, by decide, ?_⟩
    have := targetType_keys_clean
      (((slaves.flatMap (fun sl => sl.targets)).map
        (fun t => t.klass)).eraseDups)
      (slaves.flatMap (fun sl => sl.targets))
    convert this using 2

end Toil
